import Mathlib

set_option maxRecDepth 40000

/-!
Verification development for an OCR error-analysis and correction system
(three Python scripts: a corrector, a comprehensive analyzer, and an older
analyzer variant).  Texts are modelled as `List Char`.  Regex constructs used
by the source are shallowly embedded:

* `\w` (Python word character) is modelled by `isWordChar`, the ASCII class
  `[A-Za-z0-9_]` (the corpus and all rule tables are ASCII).
* `re.IGNORECASE` matching of literal patterns is modelled by comparing
  `Char.toLower` images (ASCII case folding, which agrees with Python on
  ASCII input).
* `re.findall` / `re.sub` of a literal pattern scan left to right and
  match non-overlapping occurrences; after a match the scan resumes at the
  first character past it.  `\b` is a word/non-word transition, with the
  positions before the first and after the last character counting as
  non-word context.
-/

/-- ASCII word character, the shallow embedding of regex `\w`:
`[A-Za-z0-9_]` (codes 48-57, 65-90, 97-122, 95). -/
def isWordChar (c : Char) : Bool :=
  decide ((48 ≤ c.toNat ∧ c.toNat ≤ 57) ∨ (65 ≤ c.toNat ∧ c.toNat ≤ 90) ∨
    (97 ≤ c.toNat ∧ c.toNat ≤ 122) ∨ c.toNat = 95)

/-- Wordness of an optional character; absent (text edge) counts as non-word. -/
def wordO : Option Char → Bool
  | none => false
  | some c => isWordChar c

/-- Does the pattern match case-insensitively as a prefix of the text? -/
def matchesCI : List Char → List Char → Bool
  | [], _ => true
  | _ :: _, [] => false
  | p :: ps, c :: cs => (p.toLower == c.toLower) && matchesCI ps cs

/-- Case-insensitive equality of two character lists. -/
def ciEq : List Char → List Char → Bool
  | [], [] => true
  | p :: ps, c :: cs => (p.toLower == c.toLower) && ciEq ps cs
  | _, _ => false

/-- All characters are word characters. -/
def allWord (l : List Char) : Bool := l.all isWordChar

/-- Does the regex `\b<k>\b` (k a literal, matched case-insensitively) match at
the head of `t`, where `prev` is the character just before `t` in the full
text (`none` at the start)?  The two `\b` are word/non-word transitions. -/
def fireCond (k : List Char) (prev : Option Char) (t : List Char) : Bool :=
  !k.isEmpty && (wordO prev != wordO t.head?) && matchesCI k t &&
    (wordO (t.take k.length).getLast? != wordO (t.drop k.length).head?)

/-- One left-to-right pass of `re.sub(r'\b'+re.escape(k)+r'\b', v, ·, re.IGNORECASE)`.
`prev` is the original character preceding the current scan position.  The
`skip` counter is the number of characters of the current match still to be
consumed: the scan resumes only at the first position past a match. -/
def subWBAux (k v : List Char) : Nat → Option Char → List Char → List Char
  | _, _, [] => []
  | n + 1, _, c :: cs => subWBAux k v n (some c) cs
  | 0, prev, c :: cs =>
    if fireCond k prev (c :: cs) then
      v ++ subWBAux k v (k.length - 1) (some c) cs
    else
      c :: subWBAux k v 0 (some c) cs

/-- `re.sub(r'\b'+re.escape(k)+r'\b', v, t, re.IGNORECASE)`. -/
def subWB (k v t : List Char) : List Char := subWBAux k v 0 none t

/-- Number of non-overlapping matches of `\b<k>\b` (case-insensitive) from the
current scan position; models `len(re.findall(pattern, t, re.IGNORECASE))`. -/
def countWBAux (k : List Char) : Nat → Option Char → List Char → Nat
  | _, _, [] => 0
  | n + 1, _, c :: cs => countWBAux k n (some c) cs
  | 0, prev, c :: cs =>
    if fireCond k prev (c :: cs) then
      1 + countWBAux k (k.length - 1) (some c) cs
    else
      countWBAux k 0 (some c) cs

/-- `len(re.findall(r'\b'+re.escape(k)+r'\b', t, re.IGNORECASE))`. -/
def countWB (k t : List Char) : Nat := countWBAux k 0 none t

/-- Number of non-overlapping, left-to-right, case-sensitive occurrences of the
literal `p` in `t` from the current scan position, with a skip counter for the
tail of the current match. -/
def countSubAux (p : List Char) : Nat → List Char → Nat
  | _, [] => 0
  | n + 1, _ :: cs => countSubAux p n cs
  | 0, c :: cs =>
    if p ≠ [] ∧ p.isPrefixOf (c :: cs) then
      1 + countSubAux p (p.length - 1) cs
    else
      countSubAux p 0 cs

/-- `len(re.compile(re.escape(p)).findall(t))`. -/
def countSub (p t : List Char) : Nat := countSubAux p 0 t

/-- The corrector's `word_corrections` table (`OCRCorrector.__init__`), in
dict insertion order.  The source lists `'fiieids': 'friends'` twice with the
same value; a Python dict keeps one entry at the first position. -/
def word_corrections : List (List Char × List Char) :=
  [("tlie", "the"), ("ilie", "the"), ("tbe", "the"), ("tho", "the"),
   ("tliat", "that"), ("tbat", "that"), ("tlien", "then"),
   ("tliis", "this"), ("tliese", "these"), ("tliose", "those"),
   ("tliey", "they"), ("tliere", "there"), ("tliem", "them"),
   ("tlieir", "their"), ("tlius", "thus"), ("tliree", "three"),
   ("tlian", "than"), ("tlirough", "through"),
   ("wliich", "which"), ("wlien", "when"), ("wliere", "where"),
   ("wliile", "while"), ("wliite", "white"), ("wlio", "who"),
   ("wliole", "whole"), ("wliat", "what"), ("wliy", "why"),
   ("liave", "have"), ("liad", "had"), ("liis", "his"),
   ("lier", "her"), ("liim", "him"), ("liow", "how"),
   ("liere", "here"), ("liand", "hand"), ("liouse", "house"),
   ("lieart", "heart"), ("liead", "head"), ("liigh", "high"),
   ("witli", "with"), ("wltli", "with"), ("witb", "with"),
   ("aud", "and"), ("aad", "and"), ("ani", "and"), ("anc", "and"),
   ("fiom", "from"), ("frorn", "from"), ("fro", "from"),
   ("fiieids", "friends"), ("firiend", "friend"), ("fiiend", "friend"),
   ("tbserved", "observed"), ("loubted", "doubted"), ("probf", "proof"),
   ("woifet", "worst"), ("ruong", "wrong"), ("wag", "was"),
   ("io", "to"), ("od", "of"), ("ai", "at"), ("iu", "in"),
   ("oue", "one"), ("cau", "can"), ("rnay", "may"),
   ("rny", "my"), ("owu", "own"), ("uow", "now"),
   ("ouly", "only"), ("iustead", "instead"), ("upou", "upon"),
   ("rnan", "man"), ("raen", "men"), ("rnore", "more"),
   ("rnust", "must"), ("rnake", "make"), ("rnany", "many"),
   ("tirne", "time"), ("sorne", "some"), ("corne", "come"),
   ("becorne", "become"), ("horne", "home"), ("narne", "name"),
   ("sarne", "same"), ("deterrnine", "determine"),
   ("deterrnined", "determined"), ("govenrment", "government"),
   ("govemment", "government"), ("govermnent", "government"),
   ("cornmittee", "committee"), ("cornmon", "common"),
   ("raade", "made"), ("raight", "might"), ("electea", "elected"),
   ("acccle", "accede"), ("wfficb", "which"),
   ("den.ee", "defence"), ("boldy", "boldly")
  ].map (fun r => (r.1.toList, r.2.toList))

/-- The only key of `word_corrections` that is not purely word characters. -/
def deneeKey : List Char := "den.ee".toList

/-- One guarded word-level correction step of `OCRCorrector.correct_text`:
count the `\b`-delimited case-insensitive matches and substitute when there is
at least one (`if count > 0: corrected = re.sub(...)`). -/
def wordStep (r : List Char × List Char) (t : List Char) : List Char :=
  if countWB r.1 t > 0 then subWB r.1 r.2 t else t

/-- The word-level phase of `correct_text`: all word rules applied in table
order to the evolving text. -/
def wordPhase (t : List Char) : List Char :=
  word_corrections.foldl (fun acc r => wordStep r acc) t

/-- Lowercase ASCII letter test, regex `[a-z]`. -/
def isLowerAZ (c : Char) : Bool := 'a' ≤ c ∧ c ≤ 'z'

/-- Uppercase ASCII letter test, regex `[A-Z]`. -/
def isUpperAZ (c : Char) : Bool := 'A' ≤ c ∧ c ≤ 'Z'

/-- Python `\s` over ASCII: space, tab, newline, carriage return, vertical
tab, form feed. -/
def isPySpace (c : Char) : Bool :=
  c = ' ' ∨ c = '\t' ∨ c = '\n' ∨ c = '\r' ∨ c = '\x0b' ∨ c = '\x0c'

/-- `re.sub(r'\bAI([a-z])', r'M\1', ·)`: at a position preceded by non-word
context, `AI` followed by a lowercase letter becomes `M` plus that letter. -/
def fixAIAux (prev : Option Char) : List Char → List Char
  | c1 :: c2 :: c3 :: rest =>
    if c1 = 'A' ∧ c2 = 'I' ∧ wordO prev = false ∧ isLowerAZ c3 = true then
      'M' :: c3 :: fixAIAux (some c3) rest
    else
      c1 :: fixAIAux (some c1) (c2 :: c3 :: rest)
  | c1 :: cs => c1 :: fixAIAux (some c1) cs
  | [] => []

/-- `len(re.findall(r'\bAI([a-z])', ·))`. -/
def countAIAux (prev : Option Char) : List Char → Nat
  | c1 :: c2 :: c3 :: rest =>
    if c1 = 'A' ∧ c2 = 'I' ∧ wordO prev = false ∧ isLowerAZ c3 = true then
      1 + countAIAux (some c3) rest
    else
      countAIAux (some c1) (c2 :: c3 :: rest)
  | _ :: cs => countAIAux (some '.') cs
  | [] => 0

/-- `re.sub(r'\b([A-Z])1([a-z])', r'\1I\2', ·)`: a capital letter, the digit
`1` and a lowercase letter become the capital, `I`, and the lowercase. -/
def fixA1Aux (prev : Option Char) : List Char → List Char
  | c1 :: c2 :: c3 :: rest =>
    if isUpperAZ c1 = true ∧ c2 = '1' ∧ wordO prev = false ∧ isLowerAZ c3 = true then
      c1 :: 'I' :: c3 :: fixA1Aux (some c3) rest
    else
      c1 :: fixA1Aux (some c1) (c2 :: c3 :: rest)
  | c1 :: cs => c1 :: fixA1Aux (some c1) cs
  | [] => []

/-- `len(re.findall(r'\b([A-Z])1([a-z])', ·))`. -/
def countA1Aux (prev : Option Char) : List Char → Nat
  | c1 :: c2 :: c3 :: rest =>
    if isUpperAZ c1 = true ∧ c2 = '1' ∧ wordO prev = false ∧ isLowerAZ c3 = true then
      1 + countA1Aux (some c3) rest
    else
      countA1Aux (some c1) (c2 :: c3 :: rest)
  | _ :: cs => countA1Aux (some '.') cs
  | [] => 0

/-- `re.sub(r'  +', ' ', ·)`: a greedy match consumes a whole run of two or
more spaces and leaves a single space.  The Boolean state records being inside
a matched space run whose remaining spaces are consumed without output. -/
def collapseSpacesAux : Bool → List Char → List Char
  | _, [] => []
  | true, ' ' :: cs => collapseSpacesAux true cs
  | true, c :: cs => c :: collapseSpacesAux false cs
  | false, ' ' :: ' ' :: cs => ' ' :: collapseSpacesAux true cs
  | false, c :: cs => c :: collapseSpacesAux false cs

/-- `re.sub(r'  +', ' ', t)`. -/
def collapseSpaces (t : List Char) : List Char := collapseSpacesAux false t

/-- `len(re.findall(r'  +', ·))` with the same in-run state. -/
def countSpacesAux : Bool → List Char → Nat
  | _, [] => 0
  | true, ' ' :: cs => countSpacesAux true cs
  | true, _ :: cs => countSpacesAux false cs
  | false, ' ' :: ' ' :: cs => 1 + countSpacesAux true cs
  | false, _ :: cs => countSpacesAux false cs

/-- `len(re.findall(r'  +', t))`. -/
def countSpaces (t : List Char) : Nat := countSpacesAux false t

/-- `re.sub(r'(\w)-\s*\n\s*(\w)', r'\1\2', ·)`: a word character, a hyphen and
a whitespace run containing a newline, followed by a word character, are
rejoined into the two word characters.  The greedy `\s*\n\s*` consumes the
whole whitespace run (a partial consumption would leave a whitespace, not a
word character, for the final group).  The skip counter consumes the matched
span so the scan resumes past the second group. -/
def joinHyphenAux : Nat → List Char → List Char
  | _, [] => []
  | n + 1, _ :: cs => joinHyphenAux n cs
  | 0, a :: cs =>
    match cs with
    | '-' :: rest =>
      if isWordChar a then
        let ws := rest.takeWhile isPySpace
        match rest.dropWhile isPySpace with
        | b :: _ =>
          if ws.contains '\n' ∧ isWordChar b then
            a :: b :: joinHyphenAux (ws.length + 2) cs
          else a :: joinHyphenAux 0 cs
        | [] => a :: joinHyphenAux 0 cs
      else a :: joinHyphenAux 0 cs
    | _ => a :: joinHyphenAux 0 cs

/-- `re.sub(r'(\w)-\s*\n\s*(\w)', r'\1\2', t)`. -/
def joinHyphen (t : List Char) : List Char := joinHyphenAux 0 t

/-- `len(re.findall(r'(\w)-\s*\n\s*(\w)', ·))`. -/
def countHyphenAux : Nat → List Char → Nat
  | _, [] => 0
  | n + 1, _ :: cs => countHyphenAux n cs
  | 0, a :: cs =>
    match cs with
    | '-' :: rest =>
      if isWordChar a then
        let ws := rest.takeWhile isPySpace
        match rest.dropWhile isPySpace with
        | b :: _ =>
          if ws.contains '\n' ∧ isWordChar b then
            1 + countHyphenAux (ws.length + 2) cs
          else countHyphenAux 0 cs
        | [] => countHyphenAux 0 cs
      else countHyphenAux 0 cs
    | _ => countHyphenAux 0 cs

/-- `len(re.findall(r'(\w)-\s*\n\s*(\w)', t))`. -/
def countHyphen (t : List Char) : Nat := countHyphenAux 0 t

/-- The character-pattern phase of `correct_text`: the four structural
transforms of `char_patterns` in declared order, each guarded by
`if matches > 0` exactly as in the source. -/
def charPhase (t : List Char) : List Char :=
  let t1 := if countAIAux none t > 0 then fixAIAux none t else t
  let t2 := if countA1Aux none t1 > 0 then fixA1Aux none t1 else t1
  let t3 := if countSpaces t2 > 0 then collapseSpaces t2 else t2
  if countHyphen t3 > 0 then joinHyphen t3 else t3

/-- `OCRCorrector.correct_text`: word-level corrections in table order, then
the character-pattern transforms. -/
def correct_text (t : List Char) : List Char := charPhase (wordPhase t)

/-- The comprehensive analyzer's `char_confusion_pairs` table. -/
def char_confusion_pairs : List (List Char × List Char) :=
  [("l", "1"), ("I", "1"), ("O", "0"), ("S", "5"), ("Z", "2"),
   ("rn", "m"), ("cl", "d"), ("nn", "m"), ("li", "h"), ("tl", "d"),
   ("ii", "u"), ("vv", "w"), ("ﬁ", "fi"), ("ﬂ", "fl")
  ].map (fun r => (r.1.toList, r.2.toList))

/-- The comprehensive analyzer's `word_error_dict` table, in dict insertion
order. -/
def word_error_dict : List (List Char × List Char) :=
  [("tbe", "the"), ("tlie", "the"), ("ilie", "the"), ("tho", "the"),
   ("tliat", "that"), ("tbat", "that"), ("tliis", "this"), ("tliese", "these"),
   ("tliey", "they"), ("tlien", "then"), ("tliere", "there"), ("tliem", "them"),
   ("tliose", "those"), ("tliree", "three"), ("tlian", "than"), ("tlius", "thus"),
   ("tlirough", "through"),
   ("wliich", "which"), ("wlien", "when"), ("wliere", "where"), ("wlio", "who"),
   ("wliite", "white"), ("wliile", "while"), ("wliole", "whole"), ("wliat", "what"),
   ("wliy", "why"),
   ("aud", "and"), ("aad", "and"), ("aiid", "and"), ("arid", "and"),
   ("witli", "with"), ("witb", "with"), ("wltli", "with"),
   ("fiom", "from"), ("frorn", "from"), ("fro", "from"),
   ("liave", "have"), ("liad", "had"), ("liis", "his"), ("lier", "her"),
   ("liim", "him"), ("liow", "how"), ("liere", "here"), ("liand", "hand"),
   ("liouse", "house"), ("lieart", "heart"), ("liead", "head"), ("liigh", "high"),
   ("wag", "was"), ("io", "to"), ("od", "of"), ("iu", "in"), ("oue", "one"),
   ("cau", "can"), ("owu", "own"), ("uow", "now"), ("ouly", "only"),
   ("iustead", "instead"), ("upou", "upon"), ("rnan", "man"), ("raen", "men"),
   ("rnore", "more"), ("rnust", "must"), ("rnake", "make"), ("rnany", "many"),
   ("tirne", "time"), ("sorne", "some"), ("corne", "come"), ("becorne", "become"),
   ("horne", "home"), ("narne", "name"), ("sarne", "same")
  ].map (fun r => (r.1.toList, r.2.toList))

/-- Maximal runs of word characters, the matches of `re.findall(r'\b\w+\b', ·)`,
collected with an accumulator holding the word run in progress. -/
def wordRunsAux (cur : List Char) : List Char → List (List Char)
  | [] => if cur = [] then [] else [cur]
  | c :: cs =>
    if isWordChar c then wordRunsAux (cur ++ [c]) cs
    else if cur = [] then wordRunsAux [] cs
    else cur :: wordRunsAux [] cs

/-- Maximal runs of word characters of a text. -/
def wordRuns (t : List Char) : List (List Char) := wordRunsAux [] t

/-- Lowercase a text, modelling Python `str.lower()` on ASCII. -/
def lowerL (t : List Char) : List Char := t.map Char.toLower

/-- The tokens of `analyze_text`: `re.findall(r'\b\w+\b', text.lower())`. -/
def analyzeTokens (t : List Char) : List (List Char) := wordRuns (lowerL t)

/-- The character-level portion of `ComprehensiveOCRAnalyzer.analyze_text`:
for each confusion pair, the number of non-overlapping matches of the escaped
pattern in the raw text, summed into the `character_level` error count. -/
def character_level_count (t : List Char) : Nat :=
  (char_confusion_pairs.map (fun r => countSub r.1 t)).sum

/-- The word-level portion of `analyze_text`: the number of tokens that are
keys of `word_error_dict`. -/
def word_level_count (t : List Char) : Nat :=
  ((analyzeTokens t).filter
    (fun w => word_error_dict.any (fun r => r.1 == w))).length

/-- ASCII digit, the shallow embedding of regex `\d`. -/
def isDigitC (c : Char) : Bool := '0' ≤ c ∧ c ≤ '9'

/-- Numeric value of a digit list (most significant first). -/
def digitsVal (l : List Char) : Nat :=
  l.foldl (fun acc c => 10 * acc + (c.toNat - 48)) 0

/-- `re.search(r'(\d{4})', filename)` followed by `int(...)`: scan left to
right and return the value of the first four consecutive digits, or `none`.
A match may begin inside a longer digit run. -/
def extract_year : List Char → Option Int
  | c1 :: c2 :: c3 :: c4 :: rest =>
    if isDigitC c1 ∧ isDigitC c2 ∧ isDigitC c3 ∧ isDigitC c4 then
      some (digitsVal [c1, c2, c3, c4])
    else
      extract_year (c2 :: c3 :: c4 :: rest)
  | _ => none

/-- `re.search(r'([a-z]{3})', filename.lower())`: the first three consecutive
lowercase letters of the lowercased filename, or `"unknown"`. -/
def extractCodeAux : List Char → List Char
  | c1 :: c2 :: c3 :: rest =>
    if isLowerAZ c1 ∧ isLowerAZ c2 ∧ isLowerAZ c3 then [c1, c2, c3]
    else extractCodeAux (c2 :: c3 :: rest)
  | _ => "unknown".toList

/-- Contiguous substring test, modelling Python `needle in haystack`. -/
def isSubstr (p : List Char) : List Char → Bool
  | [] => p.isEmpty
  | c :: cs => p.isPrefixOf (c :: cs) || isSubstr p cs

/-- Resolution detection of `extract_metadata`: case-insensitive substring
checks for `150dpi`, `300dpi`, `400dpi`, `600dpi` on the full path, in that
order. -/
def extract_resolution (path : List Char) : Option Int :=
  let lp := lowerL path
  if isSubstr "150dpi".toList lp then some 150
  else if isSubstr "300dpi".toList lp then some 300
  else if isSubstr "400dpi".toList lp then some 400
  else if isSubstr "600dpi".toList lp then some 600
  else none

/-- Stage detection of `extract_metadata`: case-insensitive substring checks
in priority order, defaulting to `"unknown"`. -/
def extract_stage (path : List Char) : String :=
  let lp := lowerL path
  if isSubstr "inprocess".toList lp then "in_process"
  else if isSubstr "ready".toList lp then "ready"
  else if isSubstr "archival".toList lp then "archived"
  else if isSubstr "batch".toList lp then "batch"
  else "unknown"

/-- Parent-directory grouping of `extract_metadata`: case-sensitive substring
checks, defaulting to `"Other"`. -/
def extract_parent_directory (path : List Char) : String :=
  if isSubstr "2_KDNP_inprocess".toList path then "2_KDNP_inprocess"
  else if isSubstr "3_KDNP_Ready".toList path then "3_KDNP_Ready"
  else if isSubstr "4_Archival-Packages_Ready".toList path then "4_Archival-Packages_Ready"
  else if isSubstr "7_NDNP_Batch".toList path then "7_NDNP_Batch"
  else "Other"

/-- `DocumentMetadata` as produced by
`ComprehensiveOCRAnalyzer.extract_metadata`. -/
structure Metadata where
  year : Option Int
  newspaper_code : List Char
  resolution : Option Int
  stage : String
  parent_directory : String
  filename : List Char
  path : List Char
  deriving DecidableEq, Repr

/-- `ComprehensiveOCRAnalyzer.extract_metadata`.  The filename portion
(`filepath.name`) and the full path string (`str(filepath)`) are supplied by
the external path library, so the function takes both. -/
def extract_metadata (filename path : List Char) : Metadata :=
  { year := extract_year filename
    newspaper_code := extractCodeAux (lowerL filename)
    resolution := extract_resolution path
    stage := extract_stage path
    parent_directory := extract_parent_directory path
    filename := filename
    path := path }

/-- `ComprehensiveOCRAnalyzer.categorize_era`.  Python's `if not year:`
is true both for `None` and for the integer `0`, so both map to
`"Unknown"`. -/
def categorize_era : Option Int → String
  | none => "Unknown"
  | some y =>
    if y = 0 then "Unknown"
    else if y < 1850 then "1800-1849 (Early 19th C)"
    else if y < 1875 then "1850-1874 (Mid 19th C)"
    else if y < 1900 then "1875-1899 (Late 19th C)"
    else if y < 1920 then "1900-1919 (WWI Era)"
    else if y < 1940 then "1920-1939 (Interwar)"
    else if y < 1960 then "1940-1959 (WWII-Postwar)"
    else if y < 1980 then "1960-1979 (Modern)"
    else "1980-2001 (Digital Era)"

/-- The eight era bucket labels of the canonical partition. -/
def eraLabels : List String :=
  ["1800-1849 (Early 19th C)", "1850-1874 (Mid 19th C)",
   "1875-1899 (Late 19th C)", "1900-1919 (WWI Era)",
   "1920-1939 (Interwar)", "1940-1959 (WWII-Postwar)",
   "1960-1979 (Modern)", "1980-2001 (Digital Era)"]

/-- The per-category error counts of one document
(`analysis['errors_found']`). -/
structure ErrorsFound where
  character_level : Nat
  word_level : Nat
  suspicious : Nat
  deriving DecidableEq, Repr

/-- `DocumentMetrics`: the fixed-shape record produced by `analyze_text` for
one document. -/
structure Analysis where
  word_count : Nat
  char_count : Nat
  errors_found : ErrorsFound
  deriving DecidableEq, Repr

/-- One (metadata, metrics) pair as folded by `scan_all_files`. -/
structure Doc where
  meta : Metadata
  analysis : Analysis
  deriving DecidableEq, Repr

/-- `sum(analysis['errors_found'].values())`. -/
def errorsSum (a : Analysis) : Nat :=
  a.errors_found.character_level + a.errors_found.word_level +
    a.errors_found.suspicious

/-- The global totals of `results['metadata']`. -/
structure MetaTotals where
  total_files : Nat
  total_words : Nat
  total_characters : Nat
  deriving DecidableEq, Repr

/-- A `results['by_directory']` bucket (defaultdict zero initializer). -/
structure DirBucket where
  files : Nat
  words : Nat
  errors : Nat
  deriving DecidableEq, Repr

/-- The per-file record appended to an era bucket's `files` list. -/
structure EraFileRec where
  filename : List Char
  year : Option Int
  newspaper : List Char
  directory : String
  word_count : Nat
  errors : Nat
  deriving DecidableEq, Repr

/-- A `results['by_era']` bucket. -/
structure EraBucket where
  files : List EraFileRec
  total_words : Nat
  total_errors : Nat
  deriving DecidableEq, Repr

/-- A `results['by_resolution']` bucket (defaultdict zero initializer). -/
structure ResBucket where
  files : Nat
  words : Nat
  errors : Nat
  deriving DecidableEq, Repr

/-- A `results['by_newspaper']` bucket: file count, set of years seen, and the
`errors` Counter keyed by the three error categories. -/
structure PaperBucket where
  files : Nat
  years : Finset Int
  err_character_level : Nat
  err_word_level : Nat
  err_suspicious : Nat
  deriving DecidableEq

/-- The aggregation state mutated by `scan_all_files`.  Python defaultdicts
(and the explicitly initialized `by_era` dict) are modelled as total functions
with the zero-valued initializer as default. -/
structure ScanState where
  metadata : MetaTotals
  by_directory : String → DirBucket
  by_era : String → EraBucket
  by_resolution : String → ResBucket
  by_newspaper : List Char → PaperBucket

/-- The initial (empty) aggregation state. -/
def initState : ScanState :=
  { metadata := ⟨0, 0, 0⟩
    by_directory := fun _ => ⟨0, 0, 0⟩
    by_era := fun _ => ⟨[], 0, 0⟩
    by_resolution := fun _ => ⟨0, 0, 0⟩
    by_newspaper := fun _ => ⟨0, ∅, 0, 0, 0⟩ }

/-- The resolution bucket key `f"{resolution}dpi"`. -/
def resKey (r : Int) : String := toString r ++ "dpi"

/-- The file record appended to an era bucket by one fold step. -/
def eraRec (d : Doc) : EraFileRec :=
  { filename := d.meta.filename
    year := d.meta.year
    newspaper := d.meta.newspaper_code
    directory := d.meta.parent_directory
    word_count := d.analysis.word_count
    errors := errorsSum d.analysis }

/-- The per-document fold step of `ComprehensiveOCRAnalyzer.scan_all_files`:
update global totals, the directory bucket, the era bucket (appending a file
record), the resolution bucket (only when `metadata['resolution']` is truthy),
and the newspaper bucket (adding the year only when truthy). -/
def foldDoc (st : ScanState) (d : Doc) : ScanState :=
  let era := categorize_era d.meta.year
  let dirKey := d.meta.parent_directory
  let paper := d.meta.newspaper_code
  { metadata :=
      { total_files := st.metadata.total_files + 1
        total_words := st.metadata.total_words + d.analysis.word_count
        total_characters := st.metadata.total_characters + d.analysis.char_count }
    by_directory := fun k =>
      if k = dirKey then
        { files := (st.by_directory k).files + 1
          words := (st.by_directory k).words + d.analysis.word_count
          errors := (st.by_directory k).errors + errorsSum d.analysis }
      else st.by_directory k
    by_era := fun k =>
      if k = era then
        { files := (st.by_era k).files ++ [eraRec d]
          total_words := (st.by_era k).total_words + d.analysis.word_count
          total_errors := (st.by_era k).total_errors + errorsSum d.analysis }
      else st.by_era k
    by_resolution := fun k =>
      match d.meta.resolution with
      | none => st.by_resolution k
      | some r =>
        if r = 0 then st.by_resolution k
        else if k = resKey r then
          { files := (st.by_resolution k).files + 1
            words := (st.by_resolution k).words + d.analysis.word_count
            errors := (st.by_resolution k).errors + errorsSum d.analysis }
        else st.by_resolution k
    by_newspaper := fun k =>
      if k = paper then
        { files := (st.by_newspaper k).files + 1
          years :=
            match d.meta.year with
            | none => (st.by_newspaper k).years
            | some y => if y = 0 then (st.by_newspaper k).years
                        else insert y (st.by_newspaper k).years
          err_character_level := (st.by_newspaper k).err_character_level +
            d.analysis.errors_found.character_level
          err_word_level := (st.by_newspaper k).err_word_level +
            d.analysis.errors_found.word_level
          err_suspicious := (st.by_newspaper k).err_suspicious +
            d.analysis.errors_found.suspicious }
      else st.by_newspaper k }

/-- Folding a whole stream of documents, as the loop of `scan_all_files`. -/
def scanFold (docs : List Doc) : ScanState := docs.foldl foldDoc initState

/-- An era bucket after `calculate_statistics`: the two derived fields are
`Option`-valued because the source adds the dict keys `error_rate` and
`avg_errors_per_file` only inside `if data['total_words'] > 0:` and a bucket
with no words never receives them. -/
structure EraBucketFinal where
  files : List EraFileRec
  total_words : Nat
  total_errors : Nat
  error_rate : Option ℚ
  avg_errors_per_file : Option ℚ
  deriving DecidableEq

/-- The era-bucket finalization loop of
`ComprehensiveOCRAnalyzer.calculate_statistics` applied to one bucket:
`error_rate = total_errors / total_words * 100`,
`avg_errors_per_file = total_errors / len(files)`, both only when
`total_words > 0`.  Exact rational division models Python float division. -/
def finalizeEra (b : EraBucket) : EraBucketFinal :=
  if b.total_words > 0 then
    { files := b.files
      total_words := b.total_words
      total_errors := b.total_errors
      error_rate := some (((b.total_errors : ℚ) / (b.total_words : ℚ)) * 100)
      avg_errors_per_file := some ((b.total_errors : ℚ) / (b.files.length : ℚ)) }
  else
    { files := b.files
      total_words := b.total_words
      total_errors := b.total_errors
      error_rate := none
      avg_errors_per_file := none }

/-- Characterization (from the claim's wording, for the C4 counterexample): a
maximal-run reading of "the first run of exactly four consecutive digits":
scan maximal digit runs and return the value of the first run whose length is
exactly four; a longer run yields nothing from that run.  The accumulator
holds the digit run in progress. -/
def specYearRunAux (run : List Char) : List Char → Option Int
  | [] => if run.length = 4 then some (digitsVal run) else none
  | c :: cs =>
    if isDigitC c then specYearRunAux (run ++ [c]) cs
    else if run.length = 4 then some (digitsVal run)
    else specYearRunAux [] cs

/-- The first maximal digit run of length exactly four, as an integer. -/
def specYearExactRun (s : List Char) : Option Int := specYearRunAux [] s

/-- Positional predicate: four consecutive digits occur at offset `i`. -/
def fourDigitsAt (s : List Char) (i : Nat) : Prop :=
  ((s.drop i).take 4).length = 4 ∧ ∀ c ∈ (s.drop i).take 4, isDigitC c = true

/-- A word rule at the token level: a token case-insensitively equal to the
key is replaced by the value, other tokens are untouched. -/
def tokenMap (k v w : List Char) : List Char := if ciEq k w then v else w

/-- The effect of the `den.ee` rule on the chunk decomposition of a text
(alternating maximal word runs and separator runs): a word chunk matching
`den`, the exact separator `.`, and a word chunk matching `ee` collapse into
the single word chunk `defence`; the scan resumes after the consumed triple. -/
def deneeCollapse : List (List Char) → List (List Char)
  | r :: s :: r2 :: L =>
    if ciEq "den".toList r ∧ s = ['.'] ∧ ciEq "ee".toList r2 then
      "defence".toList :: deneeCollapse L
    else
      r :: deneeCollapse (s :: r2 :: L)
  | l => l

/-- Number of `den`/`.`/`ee` chunk triples, scanning left to right. -/
def deneeCount : List (List Char) → Nat
  | r :: s :: r2 :: L =>
    if ciEq "den".toList r ∧ s = ['.'] ∧ ciEq "ee".toList r2 then
      1 + deneeCount L
    else
      deneeCount (s :: r2 :: L)
  | _ => 0

/-- One word rule of the corrector applied at the chunk level. -/
def ruleChunkStep (r : List Char × List Char) (L : List (List Char)) :
    List (List Char) :=
  if r.1 = deneeKey then deneeCollapse L else L.map (tokenMap r.1 r.2)

/-- All corrector word rules applied at the chunk level, in table order. -/
def chunkPhase (L : List (List Char)) : List (List Char) :=
  word_corrections.foldl (fun acc r => ruleChunkStep r acc) L

/-- A valid chunk decomposition: a list of nonempty runs of uniform wordness,
with adjacent runs of different wordness; the index records the wordness of
the run just before the list (`none` at the start of the text). -/
inductive Alt : Option Bool → List (List Char) → Prop
  | nil (b : Option Bool) : Alt b []
  | cons (b : Option Bool) (w : Bool) (r : List Char) (L : List (List Char))
      (hr : r ≠ []) (hw : ∀ c ∈ r, isWordChar c = w) (hne : b ≠ some w)
      (hL : Alt (some w) L) : Alt b (r :: L)

/-- The wordness of the character context described by an `Alt` index. -/
def bOf : Option Bool → Bool
  | some true => true
  | _ => false

/-- A rule's key is a nonempty all-word-character token or the special
`den.ee` key, and its value is a nonempty all-word-character token. -/
def goodRule (r : List Char × List Char) : Bool :=
  (allWord r.1 && !r.1.isEmpty || r.1 == deneeKey) &&
    allWord r.2 && !r.2.isEmpty

/-- Tokens of the chunk list have no case-insensitive match for the rule:
for a pure-word key no chunk is `ciEq` to it, for `den.ee` no chunk triple
matches. -/
def ruleClean (r : List Char × List Char) (L : List (List Char)) : Prop :=
  if r.1 = deneeKey then deneeCount L = 0 else ∀ w ∈ L, ciEq r.1 w = false

/-- The resolution bucket key a document contributes to: `none` when the
resolution is absent (or the falsy `0`), otherwise `f"{r}dpi"`. -/
def resKeyOf (d : Doc) : Option String :=
  match d.meta.resolution with
  | none => none
  | some r => if r = 0 then none else some (resKey r)

/-- The year a document contributes to its newspaper bucket's year set:
`None` and the falsy `0` contribute nothing. -/
def truthyYear (d : Doc) : Option Int :=
  match d.meta.year with
  | none => none
  | some y => if y = 0 then none else some y

/-! ### Character-level facts about ASCII case folding -/

theorem char_toNat_inj {c d : Char} (h : c.toNat = d.toNat) : c = d := by
  have := congrArg Char.ofNat h
  rwa [Char.ofNat_toNat, Char.ofNat_toNat] at this

theorem toNat_ofNat_valid (n : Nat) (h : n.isValidChar) :
    (Char.ofNat n).toNat = n := by
  rw [Char.ofNat, dif_pos h]
  rfl

theorem toLower_toNat (c : Char) :
    c.toLower.toNat =
      if 65 ≤ c.toNat ∧ c.toNat ≤ 90 then c.toNat + 32 else c.toNat := by
  rw [Char.toLower]
  split
  · next h =>
    have hv : (c.toNat + 32).isValidChar := Or.inl (by omega)
    rw [toNat_ofNat_valid _ hv]
  · rfl

/-- Characters with equal ASCII lowercase images have the same wordness. -/
theorem ci_word {c d : Char} (h : c.toLower = d.toLower) :
    isWordChar c = isWordChar d := by
  have h' := congrArg Char.toNat h
  rw [toLower_toNat, toLower_toNat] at h'
  simp only [isWordChar, decide_eq_decide]
  split_ifs at h' <;> omega

/-- A non-word character equals any character with the same lowercase image. -/
theorem ci_nonword_eq {c d : Char} (h : c.toLower = d.toLower)
    (hw : isWordChar c = false) : c = d := by
  have h' := congrArg Char.toNat h
  rw [toLower_toNat, toLower_toNat] at h'
  simp only [isWordChar, decide_eq_false_iff_not] at hw
  split_ifs at h' with hc hd hd
  · exact char_toNat_inj (by omega)
  · exact absurd (Or.inr (Or.inl hc)) hw
  · exact absurd (Or.inr (Or.inr (Or.inl (by omega)))) hw
  · exact char_toNat_inj h'

theorem ciEq_length {k w : List Char} (h : ciEq k w = true) :
    k.length = w.length := by
  induction k generalizing w with
  | nil => cases w with
    | nil => rfl
    | cons c cs => simp [ciEq] at h
  | cons p ps ih => cases w with
    | nil => simp [ciEq] at h
    | cons c cs =>
      simp only [ciEq, Bool.and_eq_true] at h
      simp [ih h.2]

theorem ciEq_allWord {k w : List Char} (h : ciEq k w = true)
    (hk : allWord k = true) : allWord w = true := by
  induction k generalizing w with
  | nil => cases w with
    | nil => rfl
    | cons c cs => simp [ciEq] at h
  | cons p ps ih => cases w with
    | nil => simp [ciEq] at h
    | cons c cs =>
      simp only [ciEq, Bool.and_eq_true, beq_iff_eq] at h
      simp only [allWord, List.all_cons, Bool.and_eq_true] at hk ⊢
      exact ⟨(ci_word h.1.symm).trans hk.1, ih h.2 hk.2⟩

/-! ### Non-overlapping counting (claim C3) -/

theorem countSubAux_mul_le (p : List Char) :
    ∀ (t : List Char) (n : Nat),
      n + countSubAux p n t * p.length ≤ max n t.length := by
  intro t
  induction t with
  | nil => intro n; simp [countSubAux]
  | cons c cs ih =>
    intro n
    match n with
    | m + 1 =>
      have := ih m
      simp only [countSubAux, List.length_cons]
      omega
    | 0 =>
      simp only [countSubAux, List.length_cons]
      split
      · next h =>
        have hpre : p.length ≤ cs.length + 1 := by
          have := (List.isPrefixOf_iff_prefix.mp h.2).length_le
          simpa using this
        have hp : 1 ≤ p.length := List.length_pos.mpr h.1
        have := ih (p.length - 1)
        rw [Nat.add_mul, Nat.one_mul]
        omega
      · have := ih 0
        omega

theorem countSub_mul_le (p t : List Char) (hp : p ≠ []) :
    countSub p t * p.length ≤ t.length := by
  have := countSubAux_mul_le p t 0
  simpa [countSub] using this

theorem countSub_singleton (c : Char) (t : List Char) :
    countSub [c] t = t.count c := by
  have key : ∀ u : List Char, countSubAux [c] 0 u = u.count c := by
    intro u
    induction u with
    | nil => simp [countSubAux]
    | cons d ds ih =>
      simp only [countSubAux]
      by_cases hdc : d = c
      · subst hdc
        rw [if_pos ⟨by simp, by simp [List.isPrefixOf]⟩]
        simp only [List.length_cons, List.length_nil]
        rw [ih]
        simp [List.count_cons]
        omega
      · rw [if_neg]
        · have hne : (c == d) = false :=
            beq_eq_false_iff_ne.mpr (fun h => hdc h.symm)
          rw [ih]
          simp [List.count_cons, hne]
          exact hdc
        · rintro ⟨-, hpre⟩
          simp [List.isPrefixOf] at hpre
          exact hdc hpre.symm
  exact key t

/-- C3: the Text Analyzer's character-level pass counts non-overlapping,
left-to-right occurrences of each character rule's pattern in the raw text;
for `"rnrnrn"` the rule `rn → m` contributes exactly 3 matches, and
overlapping occurrences are never double-counted (the matches of a pattern of
length `ℓ` occupy `count · ℓ` distinct characters of the text). -/
theorem c3_char_counting_nonoverlapping :
    countSub ("rn".toList) ("rnrnrn".toList) = 3 ∧
    character_level_count ("rnrnrn".toList) = 3 ∧
    (∀ p t : List Char, p ≠ [] → countSub p t * p.length ≤ t.length) :=
  ⟨by decide, by decide, fun p t hp => countSub_mul_le p t hp⟩

/-- C3 witness: the general non-overlap bound applied to the claim's own
example. -/
theorem c3_witness :
    countSub ("rn".toList) ("rnrnrn".toList) * ("rn".toList).length ≤
      ("rnrnrn".toList).length :=
  c3_char_counting_nonoverlapping.2.2 ("rn".toList) ("rnrnrn".toList) (by decide)

/-- C8: the confusion rule set contains the five single-letter character rules
`l→1`, `I→1`, `O→0`, `S→5`, `Z→2`, whose non-overlapping match count over raw
text is exactly the number of occurrences of the letter, so the analyzer's
character-level error total is at least the number of occurrences of each of
these plain letters — in particular at least the number of `l`s. -/
theorem c8_single_letter_rules (t : List Char) :
    (("l".toList, "1".toList) ∈ char_confusion_pairs ∧
     ("I".toList, "1".toList) ∈ char_confusion_pairs ∧
     ("O".toList, "0".toList) ∈ char_confusion_pairs ∧
     ("S".toList, "5".toList) ∈ char_confusion_pairs ∧
     ("Z".toList, "2".toList) ∈ char_confusion_pairs) ∧
    (∀ c ∈ ['l', 'I', 'O', 'S', 'Z'],
      countSub [c] t = t.count c ∧ t.count c ≤ character_level_count t) := by
  refine ⟨by decide, ?_⟩
  intro c hc
  have hsum : countSub [c] t ≤ character_level_count t := by
    show countSub [c] t ≤ (char_confusion_pairs.map (fun r => countSub r.1 t)).sum
    apply List.single_le_sum (fun x _ => Nat.zero_le x)
    apply List.mem_map.mpr
    fin_cases hc
    exacts [⟨("l".toList, "1".toList), by decide, rfl⟩,
      ⟨("I".toList, "1".toList), by decide, rfl⟩,
      ⟨("O".toList, "0".toList), by decide, rfl⟩,
      ⟨("S".toList, "5".toList), by decide, rfl⟩,
      ⟨("Z".toList, "2".toList), by decide, rfl⟩]
  exact ⟨countSub_singleton c t, (countSub_singleton c t) ▸ hsum⟩

/-- C8 witness: instantiated at a concrete text. -/
theorem c8_witness :
    countSub ['l'] ("hello".toList) = ("hello".toList).count 'l' ∧
    ("hello".toList).count 'l' ≤ character_level_count ("hello".toList) :=
  (c8_single_letter_rules ("hello".toList)).2 'l' (by decide)

/-- C5: the worked metadata example.  For filename `kea1828012501_ocr.txt`
with a path containing `300dpi` and `inprocess`, the extractor returns
year 1828, publication code `kea`, 300 dpi, and stage `in_process`. -/
theorem c5_metadata_example :
    (extract_metadata ("kea1828012501_ocr.txt".toList)
      ("G:\\2_KDNP_inprocess\\kea1828012501\\300dpi\\kea1828012501_ocr.txt".toList)).year
        = some 1828 ∧
    (extract_metadata ("kea1828012501_ocr.txt".toList)
      ("G:\\2_KDNP_inprocess\\kea1828012501\\300dpi\\kea1828012501_ocr.txt".toList)).newspaper_code
        = "kea".toList ∧
    (extract_metadata ("kea1828012501_ocr.txt".toList)
      ("G:\\2_KDNP_inprocess\\kea1828012501\\300dpi\\kea1828012501_ocr.txt".toList)).resolution
        = some 300 ∧
    (extract_metadata ("kea1828012501_ocr.txt".toList)
      ("G:\\2_KDNP_inprocess\\kea1828012501\\300dpi\\kea1828012501_ocr.txt".toList)).stage
        = "in_process" := by
  decide

/-- C6 counterexample: the claim says every integer year maps to one of the
eight era bucket labels, but the source's `if not year:` treats the integer
year 0 as absent, so year 0 maps to `"Unknown"`, which is not an era bucket
label. -/
theorem c6_counterexample :
    categorize_era (some 0) = "Unknown" ∧ "Unknown" ∉ eraLabels :=
  ⟨rfl, by decide⟩

/-- C6 (amended): an absent year and the integer year 0 map to `"Unknown"`;
every other integer year maps to exactly one of the eight era bucket labels
(the labels are pairwise distinct), and every nonzero year strictly below
1850 maps to the earliest bucket. -/
theorem c6_era_partition_amended :
    categorize_era none = "Unknown" ∧
    (∀ y : Int, y ≠ 0 → categorize_era (some y) ∈ eraLabels) ∧
    (∀ y : Int, y ≠ 0 → y < 1850 →
      categorize_era (some y) = "1800-1849 (Early 19th C)") ∧
    eraLabels.Nodup := by
  refine ⟨rfl, ?_, ?_, by decide⟩
  · intro y hy
    simp only [categorize_era, if_neg hy]
    split_ifs <;> simp [eraLabels]
  · intro y hy hlt
    simp only [categorize_era, if_neg hy, if_pos hlt]

/-- C6 witness: the amended partition at the concrete year 1828. -/
theorem c6_witness :
    categorize_era (some 1828) ∈ eraLabels ∧
    categorize_era (some 1828) = "1800-1849 (Early 19th C)" :=
  ⟨c6_era_partition_amended.2.1 1828 (by decide),
   c6_era_partition_amended.2.2.1 1828 (by decide) (by decide)⟩

/-- C4 counterexample: on the filename `12345` the claim's reading (first run
of *exactly* four digits, absent when the only digit runs are longer) yields
nothing, but `re.search(r'(\d{4})', ·)` matches the first four digits inside
the five-digit run, so the extractor returns 1234. -/
theorem c4_counterexample :
    specYearExactRun ("12345".toList) = none ∧
    extract_year ("12345".toList) = some 1234 ∧
    (extract_metadata ("12345".toList) ("12345".toList)).year = some 1234 := by
  decide

theorem fourDigitsAt_cons (c : Char) (s : List Char) (i : Nat) :
    fourDigitsAt (c :: s) (i + 1) ↔ fourDigitsAt s i := by
  simp [fourDigitsAt, List.drop_succ_cons]

theorem fourDigitsAt_length {s : List Char} {i : Nat} (h : fourDigitsAt s i) :
    i + 4 ≤ s.length := by
  obtain ⟨hlen, -⟩ := h
  rw [List.length_take, List.length_drop] at hlen
  omega

theorem c4_window_aux :
    ∀ s : List Char,
      (extract_year s = none ↔ ∀ i, ¬ fourDigitsAt s i) ∧
      (∀ y : Int, extract_year s = some y ↔
        ∃ i, fourDigitsAt s i ∧ (∀ j, j < i → ¬ fourDigitsAt s j) ∧
          y = (digitsVal ((s.drop i).take 4) : Int))
  | c1 :: c2 :: c3 :: c4 :: rest => by
    have ih := c4_window_aux (c2 :: c3 :: c4 :: rest)
    have htake : (c1 :: c2 :: c3 :: c4 :: rest).take 4 = [c1, c2, c3, c4] := rfl
    by_cases hd : isDigitC c1 ∧ isDigitC c2 ∧ isDigitC c3 ∧ isDigitC c4
    · have h0 : fourDigitsAt (c1 :: c2 :: c3 :: c4 :: rest) 0 := by
        unfold fourDigitsAt
        rw [List.drop_zero, htake]
        refine ⟨rfl, ?_⟩
        intro c hc
        simp only [List.mem_cons, List.not_mem_nil, or_false] at hc
        rcases hc with rfl | rfl | rfl | rfl
        exacts [hd.1, hd.2.1, hd.2.2.1, hd.2.2.2]
      have heq : extract_year (c1 :: c2 :: c3 :: c4 :: rest) =
          some ((digitsVal [c1, c2, c3, c4] : Nat) : Int) := by
        show (if isDigitC c1 ∧ isDigitC c2 ∧ isDigitC c3 ∧ isDigitC c4 then
            some ((digitsVal [c1, c2, c3, c4] : Nat) : Int)
          else extract_year (c2 :: c3 :: c4 :: rest)) = _
        rw [if_pos hd]
      constructor
      · rw [heq]
        simp only [reduceCtorEq, false_iff, not_forall, not_not]
        exact ⟨0, h0⟩
      · intro y
        rw [heq]
        constructor
        · intro h
          rw [Option.some_inj] at h
          refine ⟨0, h0, by omega, ?_⟩
          rw [List.drop_zero, htake]
          exact h.symm
        · rintro ⟨i, hi, hmin, hy⟩
          have hi0 : i = 0 := by
            by_contra hne
            exact hmin 0 (by omega) h0
          subst hi0
          rw [List.drop_zero, htake] at hy
          rw [hy]
    · have hne0 : ¬ fourDigitsAt (c1 :: c2 :: c3 :: c4 :: rest) 0 := by
        unfold fourDigitsAt
        rw [List.drop_zero, htake]
        rintro ⟨-, hall⟩
        exact hd ⟨hall c1 (by simp), hall c2 (by simp), hall c3 (by simp),
          hall c4 (by simp)⟩
      have heq : extract_year (c1 :: c2 :: c3 :: c4 :: rest) =
          extract_year (c2 :: c3 :: c4 :: rest) := by
        show (if isDigitC c1 ∧ isDigitC c2 ∧ isDigitC c3 ∧ isDigitC c4 then
            some ((digitsVal [c1, c2, c3, c4] : Nat) : Int)
          else extract_year (c2 :: c3 :: c4 :: rest)) = _
        rw [if_neg hd]
      constructor
      · rw [heq, ih.1]
        constructor
        · intro h i
          match i with
          | 0 => exact hne0
          | j + 1 => rw [fourDigitsAt_cons]; exact h j
        · intro h j
          have := h (j + 1)
          rwa [fourDigitsAt_cons] at this
      · intro y
        rw [heq, ih.2 y]
        constructor
        · rintro ⟨i, hi, hmin, hy⟩
          refine ⟨i + 1, (fourDigitsAt_cons _ _ _).mpr hi, ?_, ?_⟩
          · intro j hj
            match j with
            | 0 => exact hne0
            | j' + 1 =>
              rw [fourDigitsAt_cons]
              exact hmin j' (by omega)
          · simpa [List.drop_succ_cons] using hy
        · rintro ⟨i, hi, hmin, hy⟩
          match i with
          | 0 => exact absurd hi hne0
          | i' + 1 =>
            rw [fourDigitsAt_cons] at hi
            refine ⟨i', hi, ?_, ?_⟩
            · intro j hj
              have := hmin (j + 1) (by omega)
              rwa [fourDigitsAt_cons] at this
            · simpa [List.drop_succ_cons] using hy
  | [] => by
    have hno : ∀ i, ¬ fourDigitsAt ([] : List Char) i := by
      intro i h
      have := fourDigitsAt_length h
      simp at this
    exact ⟨iff_of_true rfl hno,
      fun y => iff_of_false (fun h => Option.noConfusion h)
        (fun h => by obtain ⟨i, hi, -, -⟩ := h; exact hno i hi)⟩
  | [c1] => by
    have hno : ∀ i, ¬ fourDigitsAt [c1] i := by
      intro i h
      have := fourDigitsAt_length h
      simp at this
    exact ⟨iff_of_true rfl hno,
      fun y => iff_of_false (fun h => Option.noConfusion h)
        (fun h => by obtain ⟨i, hi, -, -⟩ := h; exact hno i hi)⟩
  | [c1, c2] => by
    have hno : ∀ i, ¬ fourDigitsAt [c1, c2] i := by
      intro i h
      have := fourDigitsAt_length h
      simp at this
    exact ⟨iff_of_true rfl hno,
      fun y => iff_of_false (fun h => Option.noConfusion h)
        (fun h => by obtain ⟨i, hi, -, -⟩ := h; exact hno i hi)⟩
  | [c1, c2, c3] => by
    have hno : ∀ i, ¬ fourDigitsAt [c1, c2, c3] i := by
      intro i h
      have := fourDigitsAt_length h
      simp at this
    exact ⟨iff_of_true rfl hno,
      fun y => iff_of_false (fun h => Option.noConfusion h)
        (fun h => by obtain ⟨i, hi, -, -⟩ := h; exact hno i hi)⟩

/-- C4 (amended): the year field is the integer value of the *first window of
four consecutive digits* in the filename (which may lie inside a longer digit
run), and is absent exactly when no four consecutive digits occur anywhere. -/
theorem c4_year_first_window_amended (filename path : List Char) :
    (extract_metadata filename path).year = extract_year filename ∧
    (extract_year filename = none ↔ ∀ i, ¬ fourDigitsAt filename i) ∧
    (∀ y : Int, extract_year filename = some y ↔
      ∃ i, fourDigitsAt filename i ∧ (∀ j, j < i → ¬ fourDigitsAt filename j) ∧
        y = (digitsVal ((filename.drop i).take 4) : Int)) :=
  ⟨rfl, (c4_window_aux filename).1, (c4_window_aux filename).2⟩

/-- C4 witness: the characterization applied to the example filename. -/
theorem c4_witness : ¬ fourDigitsAt ("ab1cd".toList) 0 :=
  ((c4_year_first_window_amended ("ab1cd".toList) []).2.1.mp (by decide)) 0

/-- C9: the corrector's word-level pass matches rule keys case-insensitively
and substitutes the stored all-lowercase replacement verbatim, so the original
token's capitalization is not preserved: every capitalization variant of
`tlie` standing alone (in particular `Tlie`) is rewritten to lowercase `the`,
never `The`. -/
theorem c9_lowercase_replacement (c1 c2 c3 c4 : Char) (h1 : c1.toLower = 't')
    (h2 : c2.toLower = 'l') (h3 : c3.toLower = 'i') (h4 : c4.toLower = 'e') :
    correct_text [c1, c2, c3, c4] = "the".toList := by
  have hw1 : isWordChar c1 = true := by
    rw [ci_word (show c1.toLower = 't'.toLower by rw [h1]; decide)]
    decide
  have hw4 : isWordChar c4 = true := by
    rw [ci_word (show c4.toLower = 'e'.toLower by rw [h4]; decide)]
    decide
  have hfire : fireCond ['t', 'l', 'i', 'e'] none [c1, c2, c3, c4] = true := by
    simp [fireCond, matchesCI, wordO, h1, h2, h3, h4, hw1, hw4]
  have hcnt : countWB ("tlie".toList) [c1, c2, c3, c4] = 1 := by
    show countWBAux ['t', 'l', 'i', 'e'] 0 none [c1, c2, c3, c4] = 1
    simp [countWBAux, hfire]
  have hsub : subWB ("tlie".toList) ("the".toList) [c1, c2, c3, c4] = "the".toList := by
    show subWBAux ['t', 'l', 'i', 'e'] "the".toList 0 none [c1, c2, c3, c4] = "the".toList
    simp [subWBAux, hfire]
  have hstep : wordStep ("tlie".toList, "the".toList) [c1, c2, c3, c4] = "the".toList := by
    rw [wordStep, hcnt, if_pos (by omega), hsub]
  have hsplit : word_corrections =
      ("tlie".toList, "the".toList) :: word_corrections.tail := by decide
  rw [correct_text, wordPhase, hsplit, List.foldl_cons, hstep]
  decide

/-- C9 witness: the fully capitalized variant `Tlie` becomes `the`. -/
theorem c9_witness : correct_text ("Tlie".toList) = "the".toList :=
  c9_lowercase_replacement 'T' 'l' 'i' 'e' (by decide) (by decide) (by decide)
    (by decide)

/-! ### Fold characterizations for the Statistics Aggregator -/

theorem foldl_dir (docs : List Doc) :
    ∀ (st : ScanState) (k : String),
      ((docs.foldl foldDoc st).by_directory k).files
          = (st.by_directory k).files
            + (docs.filter (fun d => d.meta.parent_directory == k)).length ∧
      ((docs.foldl foldDoc st).by_directory k).words
          = (st.by_directory k).words
            + ((docs.filter (fun d => d.meta.parent_directory == k)).map
                (fun d => d.analysis.word_count)).sum ∧
      ((docs.foldl foldDoc st).by_directory k).errors
          = (st.by_directory k).errors
            + ((docs.filter (fun d => d.meta.parent_directory == k)).map
                (fun d => errorsSum d.analysis)).sum := by
  induction docs with
  | nil => intro st k; simp
  | cons d ds ih =>
    intro st k
    rw [List.foldl_cons]
    obtain ⟨h1, h2, h3⟩ := ih (foldDoc st d) k
    rw [h1, h2, h3]
    by_cases hk : d.meta.parent_directory = k
    · simp only [foldDoc, List.filter_cons, hk, beq_self_eq_true, if_pos,
        List.length_cons, List.map_cons, List.sum_cons, if_pos hk.symm]
      refine ⟨by omega, by omega, by omega⟩
    · have hk' : (d.meta.parent_directory == k) = false := by
        simp [hk]
      simp only [foldDoc, List.filter_cons, hk', Bool.false_eq_true, if_neg,
        if_neg (Ne.symm hk)]
      exact ⟨rfl, rfl, rfl⟩

theorem foldl_era (docs : List Doc) :
    ∀ (st : ScanState) (k : String),
      ((docs.foldl foldDoc st).by_era k).files
          = (st.by_era k).files
            ++ (docs.filter (fun d => categorize_era d.meta.year == k)).map eraRec ∧
      ((docs.foldl foldDoc st).by_era k).total_words
          = (st.by_era k).total_words
            + ((docs.filter (fun d => categorize_era d.meta.year == k)).map
                (fun d => d.analysis.word_count)).sum ∧
      ((docs.foldl foldDoc st).by_era k).total_errors
          = (st.by_era k).total_errors
            + ((docs.filter (fun d => categorize_era d.meta.year == k)).map
                (fun d => errorsSum d.analysis)).sum := by
  induction docs with
  | nil => intro st k; simp
  | cons d ds ih =>
    intro st k
    rw [List.foldl_cons]
    obtain ⟨h1, h2, h3⟩ := ih (foldDoc st d) k
    rw [h1, h2, h3]
    by_cases hk : categorize_era d.meta.year = k
    · simp only [foldDoc, List.filter_cons, hk, beq_self_eq_true, if_pos,
        List.map_cons, List.sum_cons, if_pos hk.symm, List.append_assoc,
        List.singleton_append]
      refine ⟨by simp, by omega, by omega⟩
    · have hk' : (categorize_era d.meta.year == k) = false := by
        simp [hk]
      simp only [foldDoc, List.filter_cons, hk', Bool.false_eq_true, if_neg,
        if_neg (Ne.symm hk)]
      exact ⟨rfl, rfl, rfl⟩

theorem foldl_res (docs : List Doc) :
    ∀ (st : ScanState) (k : String),
      ((docs.foldl foldDoc st).by_resolution k).files
          = (st.by_resolution k).files
            + (docs.filter (fun d => resKeyOf d == some k)).length ∧
      ((docs.foldl foldDoc st).by_resolution k).words
          = (st.by_resolution k).words
            + ((docs.filter (fun d => resKeyOf d == some k)).map
                (fun d => d.analysis.word_count)).sum ∧
      ((docs.foldl foldDoc st).by_resolution k).errors
          = (st.by_resolution k).errors
            + ((docs.filter (fun d => resKeyOf d == some k)).map
                (fun d => errorsSum d.analysis)).sum := by
  induction docs with
  | nil => intro st k; simp
  | cons d ds ih =>
    intro st k
    rw [List.foldl_cons]
    obtain ⟨h1, h2, h3⟩ := ih (foldDoc st d) k
    rw [h1, h2, h3]
    have hbucket :
        (foldDoc st d).by_resolution k =
          if resKeyOf d = some k then
            { files := (st.by_resolution k).files + 1
              words := (st.by_resolution k).words + d.analysis.word_count
              errors := (st.by_resolution k).errors + errorsSum d.analysis }
          else st.by_resolution k := by
      cases hres : d.meta.resolution with
      | none => simp [foldDoc, resKeyOf, hres]
      | some r =>
        by_cases hr : r = 0
        · simp [foldDoc, resKeyOf, hres, hr]
        · by_cases hkr : k = resKey r
          · simp [foldDoc, resKeyOf, hres, hr, hkr]
          · simp [foldDoc, resKeyOf, hres, hr, hkr,
              show ¬ resKey r = k from fun h => hkr h.symm]
    rw [hbucket]
    by_cases hk : resKeyOf d = some k
    · rw [if_pos hk]
      have hk' : (resKeyOf d == some k) = true := by simp [hk]
      simp only [List.filter_cons, hk', if_pos, List.length_cons,
        List.map_cons, List.sum_cons]
      refine ⟨by omega, by omega, by omega⟩
    · rw [if_neg hk]
      have hk' : (resKeyOf d == some k) = false := by simp [hk]
      simp only [List.filter_cons, hk', Bool.false_eq_true, if_neg]
      exact ⟨rfl, rfl, rfl⟩

theorem foldl_meta (docs : List Doc) :
    ∀ st : ScanState,
      (docs.foldl foldDoc st).metadata.total_files
          = st.metadata.total_files + docs.length ∧
      (docs.foldl foldDoc st).metadata.total_words
          = st.metadata.total_words
            + (docs.map (fun d => d.analysis.word_count)).sum ∧
      (docs.foldl foldDoc st).metadata.total_characters
          = st.metadata.total_characters
            + (docs.map (fun d => d.analysis.char_count)).sum := by
  induction docs with
  | nil => intro st; simp
  | cons d ds ih =>
    intro st
    rw [List.foldl_cons]
    obtain ⟨h1, h2, h3⟩ := ih (foldDoc st d)
    rw [h1, h2, h3]
    simp only [foldDoc, List.length_cons, List.map_cons, List.sum_cons]
    refine ⟨by omega, by omega, by omega⟩

theorem foldl_paper (docs : List Doc) :
    ∀ (st : ScanState) (k : List Char),
      ((docs.foldl foldDoc st).by_newspaper k).files
          = (st.by_newspaper k).files
            + (docs.filter (fun d => d.meta.newspaper_code == k)).length ∧
      ((docs.foldl foldDoc st).by_newspaper k).err_character_level
          = (st.by_newspaper k).err_character_level
            + ((docs.filter (fun d => d.meta.newspaper_code == k)).map
                (fun d => d.analysis.errors_found.character_level)).sum ∧
      ((docs.foldl foldDoc st).by_newspaper k).err_word_level
          = (st.by_newspaper k).err_word_level
            + ((docs.filter (fun d => d.meta.newspaper_code == k)).map
                (fun d => d.analysis.errors_found.word_level)).sum ∧
      ((docs.foldl foldDoc st).by_newspaper k).err_suspicious
          = (st.by_newspaper k).err_suspicious
            + ((docs.filter (fun d => d.meta.newspaper_code == k)).map
                (fun d => d.analysis.errors_found.suspicious)).sum ∧
      ((docs.foldl foldDoc st).by_newspaper k).years
          = (st.by_newspaper k).years
            ∪ ((docs.filter (fun d => d.meta.newspaper_code == k)).filterMap
                truthyYear).toFinset := by
  induction docs with
  | nil => intro st k; simp
  | cons d ds ih =>
    intro st k
    rw [List.foldl_cons]
    obtain ⟨h1, h2, h3, h4, h5⟩ := ih (foldDoc st d) k
    rw [h1, h2, h3, h4, h5]
    by_cases hk : d.meta.newspaper_code = k
    · have hk' : (d.meta.newspaper_code == k) = true := by simp [hk]
      have hbucket :
          (foldDoc st d).by_newspaper k =
            { files := (st.by_newspaper k).files + 1
              years :=
                match truthyYear d with
                | none => (st.by_newspaper k).years
                | some y => insert y (st.by_newspaper k).years
              err_character_level := (st.by_newspaper k).err_character_level +
                d.analysis.errors_found.character_level
              err_word_level := (st.by_newspaper k).err_word_level +
                d.analysis.errors_found.word_level
              err_suspicious := (st.by_newspaper k).err_suspicious +
                d.analysis.errors_found.suspicious } := by
        cases hy : d.meta.year with
        | none => simp [foldDoc, truthyYear, hy, if_pos hk.symm]
        | some y =>
          by_cases hy0 : y = 0
          · simp [foldDoc, truthyYear, hy, hy0, if_pos hk.symm]
          · simp [foldDoc, truthyYear, hy, hy0, if_pos hk.symm]
      rw [hbucket]
      simp only [List.filter_cons, hk', if_pos, List.length_cons,
        List.map_cons, List.sum_cons]
      refine ⟨by omega, by omega, by omega, by omega, ?_⟩
      cases hty : truthyYear d with
      | none => simp [List.filterMap_cons, hty]
      | some y =>
        simp only [List.filterMap_cons, hty, List.toFinset_cons,
          Finset.union_insert, Finset.insert_union]
    · have hk' : (d.meta.newspaper_code == k) = false := by simp [hk]
      have hbucket : (foldDoc st d).by_newspaper k = st.by_newspaper k := by
        simp [foldDoc, if_neg (Ne.symm hk)]
      rw [hbucket]
      simp only [List.filter_cons, hk', Bool.false_eq_true, if_neg]
      exact ⟨rfl, rfl, rfl, rfl, rfl⟩

theorem dirBucket_ext {u v : DirBucket} (h1 : u.files = v.files)
    (h2 : u.words = v.words) (h3 : u.errors = v.errors) : u = v := by
  cases u; cases v; simp_all

theorem resBucket_ext {u v : ResBucket} (h1 : u.files = v.files)
    (h2 : u.words = v.words) (h3 : u.errors = v.errors) : u = v := by
  cases u; cases v; simp_all

theorem paperBucket_ext {u v : PaperBucket} (h1 : u.files = v.files)
    (h2 : u.years = v.years) (h3 : u.err_character_level = v.err_character_level)
    (h4 : u.err_word_level = v.err_word_level)
    (h5 : u.err_suspicious = v.err_suspicious) : u = v := by
  cases u; cases v; simp_all

theorem metaTotals_ext {u v : MetaTotals} (h1 : u.total_files = v.total_files)
    (h2 : u.total_words = v.total_words)
    (h3 : u.total_characters = v.total_characters) : u = v := by
  cases u; cases v; simp_all

/-- C2: each aggregate bucket's fileCount equals the number of contributing
documents, and every maintained numeric total (bucket word counts, error
totals — per category for publication buckets — and the global word and
character totals) equals the sum of the corresponding per-document values;
folding the same documents in any other order yields identical bucket
totals. -/
theorem c2_aggregation_additive (docs docs' : List Doc)
    (hperm : docs.Perm docs') :
    (∀ k : String,
      ((scanFold docs).by_directory k).files
          = (docs.filter (fun d => d.meta.parent_directory == k)).length ∧
      ((scanFold docs).by_directory k).words
          = ((docs.filter (fun d => d.meta.parent_directory == k)).map
              (fun d => d.analysis.word_count)).sum ∧
      ((scanFold docs).by_directory k).errors
          = ((docs.filter (fun d => d.meta.parent_directory == k)).map
              (fun d => errorsSum d.analysis)).sum) ∧
    (∀ k : String,
      ((scanFold docs).by_era k).files.length
          = (docs.filter (fun d => categorize_era d.meta.year == k)).length ∧
      ((scanFold docs).by_era k).total_words
          = ((docs.filter (fun d => categorize_era d.meta.year == k)).map
              (fun d => d.analysis.word_count)).sum ∧
      ((scanFold docs).by_era k).total_errors
          = ((docs.filter (fun d => categorize_era d.meta.year == k)).map
              (fun d => errorsSum d.analysis)).sum) ∧
    (∀ k : String,
      ((scanFold docs).by_resolution k).files
          = (docs.filter (fun d => resKeyOf d == some k)).length ∧
      ((scanFold docs).by_resolution k).words
          = ((docs.filter (fun d => resKeyOf d == some k)).map
              (fun d => d.analysis.word_count)).sum ∧
      ((scanFold docs).by_resolution k).errors
          = ((docs.filter (fun d => resKeyOf d == some k)).map
              (fun d => errorsSum d.analysis)).sum) ∧
    (∀ k : List Char,
      ((scanFold docs).by_newspaper k).files
          = (docs.filter (fun d => d.meta.newspaper_code == k)).length ∧
      ((scanFold docs).by_newspaper k).err_character_level
          = ((docs.filter (fun d => d.meta.newspaper_code == k)).map
              (fun d => d.analysis.errors_found.character_level)).sum ∧
      ((scanFold docs).by_newspaper k).err_word_level
          = ((docs.filter (fun d => d.meta.newspaper_code == k)).map
              (fun d => d.analysis.errors_found.word_level)).sum ∧
      ((scanFold docs).by_newspaper k).err_suspicious
          = ((docs.filter (fun d => d.meta.newspaper_code == k)).map
              (fun d => d.analysis.errors_found.suspicious)).sum) ∧
    ((scanFold docs).metadata.total_files = docs.length ∧
     (scanFold docs).metadata.total_words
        = (docs.map (fun d => d.analysis.word_count)).sum ∧
     (scanFold docs).metadata.total_characters
        = (docs.map (fun d => d.analysis.char_count)).sum) ∧
    ((∀ k : String,
        (scanFold docs').by_directory k = (scanFold docs).by_directory k) ∧
     (∀ k : String,
        ((scanFold docs').by_era k).files.length
            = ((scanFold docs).by_era k).files.length ∧
        ((scanFold docs').by_era k).total_words
            = ((scanFold docs).by_era k).total_words ∧
        ((scanFold docs').by_era k).total_errors
            = ((scanFold docs).by_era k).total_errors) ∧
     (∀ k : String,
        (scanFold docs').by_resolution k = (scanFold docs).by_resolution k) ∧
     (∀ k : List Char,
        (scanFold docs').by_newspaper k = (scanFold docs).by_newspaper k) ∧
     (scanFold docs').metadata = (scanFold docs).metadata) := by
  have Hdir := fun k => foldl_dir docs initState k
  have Hera := fun k => foldl_era docs initState k
  have Hres := fun k => foldl_res docs initState k
  have Hpap := fun k => foldl_paper docs initState k
  have Hmet := foldl_meta docs initState
  have Hdir' := fun k => foldl_dir docs' initState k
  have Hera' := fun k => foldl_era docs' initState k
  have Hres' := fun k => foldl_res docs' initState k
  have Hpap' := fun k => foldl_paper docs' initState k
  have Hmet' := foldl_meta docs' initState
  simp only [initState, List.nil_append, Nat.zero_add] at Hdir Hera Hres Hpap Hmet Hdir' Hera' Hres' Hpap' Hmet'
  simp only [scanFold, initState]
  have flen : ∀ {α : Type} (p : Doc → Bool) (f : Doc → α),
      ((docs'.filter p).map f).length = ((docs.filter p).map f).length :=
    fun p f => ((hperm.filter p).map f).length_eq.symm
  have fsum : ∀ (p : Doc → Bool) (f : Doc → Nat),
      ((docs'.filter p).map f).sum = ((docs.filter p).map f).sum :=
    fun p f => ((hperm.filter p).map f).sum_eq.symm
  have fl : ∀ p : Doc → Bool,
      (docs'.filter p).length = (docs.filter p).length :=
    fun p => (hperm.filter p).length_eq.symm
  refine ⟨?_, ?_, ?_, ?_, ?_, ?_, ?_, ?_, ?_, ?_⟩
  · exact fun k => ⟨(Hdir k).1, (Hdir k).2.1, (Hdir k).2.2⟩
  · intro k
    refine ⟨?_, (Hera k).2.1, (Hera k).2.2⟩
    rw [(Hera k).1, List.length_map]
  · exact fun k => ⟨(Hres k).1, (Hres k).2.1, (Hres k).2.2⟩
  · exact fun k => ⟨(Hpap k).1, (Hpap k).2.1, (Hpap k).2.2.1, (Hpap k).2.2.2.1⟩
  · exact ⟨Hmet.1, Hmet.2.1, Hmet.2.2⟩
  · intro k
    obtain ⟨a1, a2, a3⟩ := Hdir k
    obtain ⟨b1, b2, b3⟩ := Hdir' k
    exact dirBucket_ext (by rw [a1, b1]; exact fl _)
      (by rw [a2, b2]; exact fsum _ _) (by rw [a3, b3]; exact fsum _ _)
  · intro k
    obtain ⟨a1, a2, a3⟩ := Hera k
    obtain ⟨b1, b2, b3⟩ := Hera' k
    refine ⟨?_, by rw [a2, b2]; exact fsum _ _, by rw [a3, b3]; exact fsum _ _⟩
    rw [a1, b1, List.length_map, List.length_map]
    exact fl _
  · intro k
    obtain ⟨a1, a2, a3⟩ := Hres k
    obtain ⟨b1, b2, b3⟩ := Hres' k
    exact resBucket_ext (by rw [a1, b1]; exact fl _)
      (by rw [a2, b2]; exact fsum _ _) (by rw [a3, b3]; exact fsum _ _)
  · intro k
    obtain ⟨a1, a2, a3, a4, a5⟩ := Hpap k
    obtain ⟨b1, b2, b3, b4, b5⟩ := Hpap' k
    have hyears : ((docs'.filter (fun d => d.meta.newspaper_code == k)).filterMap
        truthyYear).toFinset
          = ((docs.filter (fun d => d.meta.newspaper_code == k)).filterMap
        truthyYear).toFinset :=
      List.toFinset_eq_of_perm _ _
        (((hperm.filter _).filterMap truthyYear).symm)
    refine paperBucket_ext (by rw [a1, b1]; exact fl _) ?_
      (by rw [a2, b2]; exact fsum _ _) (by rw [a3, b3]; exact fsum _ _)
      (by rw [a4, b4]; exact fsum _ _)
    rw [a5, b5, hyears]
  · obtain ⟨a1, a2, a3⟩ := Hmet
    obtain ⟨b1, b2, b3⟩ := Hmet'
    have hm : ∀ f : Doc → Nat, (docs'.map f).sum = (docs.map f).sum :=
      fun f => (hperm.map f).sum_eq.symm
    exact metaTotals_ext (by rw [a1, b1]; exact hperm.length_eq.symm)
      (by rw [a2, b2]; exact hm _) (by rw [a3, b3]; exact hm _)

/-- C2 witness: two concrete documents folded in both orders. -/
theorem c2_witness :
    (scanFold
      [⟨⟨some 1828, "kea".toList, some 300, "in_process", "Other", [], []⟩,
        ⟨10, 50, ⟨1, 2, 3⟩⟩⟩,
       ⟨⟨none, "hen".toList, none, "unknown", "Other", [], []⟩,
        ⟨5, 20, ⟨0, 1, 0⟩⟩⟩]).metadata.total_files = 2 := by
  have h := (c2_aggregation_additive
    [⟨⟨some 1828, "kea".toList, some 300, "in_process", "Other", [], []⟩,
      ⟨10, 50, ⟨1, 2, 3⟩⟩⟩,
     ⟨⟨none, "hen".toList, none, "unknown", "Other", [], []⟩,
      ⟨5, 20, ⟨0, 1, 0⟩⟩⟩]
    [⟨⟨none, "hen".toList, none, "unknown", "Other", [], []⟩,
      ⟨5, 20, ⟨0, 1, 0⟩⟩⟩,
     ⟨⟨some 1828, "kea".toList, some 300, "in_process", "Other", [], []⟩,
      ⟨10, 50, ⟨1, 2, 3⟩⟩⟩]
    (List.Perm.swap _ _ _)).2.2.2.2.1.1
  simpa using h

/-- C7 counterexample: a bucket with zero words is left with *no*
`error_rate`/`avg_errors_per_file` fields at all (modelled as `none`), not
with the fields set to zero as the claim states. -/
theorem c7_counterexample :
    (finalizeEra ((scanFold
        [⟨⟨none, "hen".toList, none, "unknown", "Other", [], []⟩,
          ⟨0, 20, ⟨0, 1, 0⟩⟩⟩]).by_era "Unknown")).error_rate = none ∧
    (finalizeEra ((scanFold
        [⟨⟨none, "hen".toList, none, "unknown", "Other", [], []⟩,
          ⟨0, 20, ⟨0, 1, 0⟩⟩⟩]).by_era "Unknown")).avg_errors_per_file = none ∧
    (none : Option ℚ) ≠ some 0 := by
  refine ⟨?_, ?_, by decide⟩ <;> decide

/-- C7 (amended): for every fold-produced era bucket with positive word count
the finalize step sets `error_rate = total_errors / total_words * 100` and
`avg_errors_per_file = total_errors / fileCount` (with `fileCount > 0`, so no
division error can occur); a bucket with zero words gets neither field (the
source adds the two dict keys only under `if data['total_words'] > 0:`), so no
division is attempted there either. -/
theorem c7_finalize_amended (docs : List Doc) (k : String) :
    (((scanFold docs).by_era k).total_words > 0 →
      (finalizeEra ((scanFold docs).by_era k)).error_rate
          = some ((((scanFold docs).by_era k).total_errors : ℚ)
              / (((scanFold docs).by_era k).total_words : ℚ) * 100) ∧
      (finalizeEra ((scanFold docs).by_era k)).avg_errors_per_file
          = some ((((scanFold docs).by_era k).total_errors : ℚ)
              / (((scanFold docs).by_era k).files.length : ℚ)) ∧
      0 < ((scanFold docs).by_era k).files.length) ∧
    (((scanFold docs).by_era k).total_words = 0 →
      (finalizeEra ((scanFold docs).by_era k)).error_rate = none ∧
      (finalizeEra ((scanFold docs).by_era k)).avg_errors_per_file = none) := by
  constructor
  · intro hw
    simp only [scanFold] at hw ⊢
    have h1 := (foldl_era docs initState k).1
    have h2 := (foldl_era docs initState k).2.1
    have hne : (docs.filter (fun d => categorize_era d.meta.year == k)) ≠ [] := by
      intro hnil
      rw [h2, hnil] at hw
      simp [initState] at hw
    have hfl : 0 < ((List.foldl foldDoc initState docs).by_era k).files.length := by
      rw [h1]
      simp only [initState, List.nil_append, List.length_map]
      exact List.length_pos.mpr hne
    refine ⟨?_, ?_, hfl⟩ <;> simp [finalizeEra, hw]
  · intro hw
    simp only [scanFold] at hw ⊢
    simp [finalizeEra, hw]

/-- C7 witness: the amended finalize behaviour on a one-document fold with a
positive word count. -/
theorem c7_witness :
    0 < ((scanFold
        [⟨⟨some 1828, "kea".toList, some 300, "in_process", "Other", [], []⟩,
          ⟨10, 50, ⟨1, 2, 3⟩⟩⟩]).by_era "1800-1849 (Early 19th C)").files.length :=
  ((c7_finalize_amended
    [⟨⟨some 1828, "kea".toList, some 300, "in_process", "Other", [], []⟩,
      ⟨10, 50, ⟨1, 2, 3⟩⟩⟩] "1800-1849 (Early 19th C)").1 (by decide)).2.2

theorem c10_count_partition (docs : List Doc)
    (hres : ∀ d ∈ docs, d.meta.resolution = none ∨ d.meta.resolution = some 150
      ∨ d.meta.resolution = some 300 ∨ d.meta.resolution = some 400
      ∨ d.meta.resolution = some 600) :
    (docs.filter (fun d => resKeyOf d == some "150dpi")).length
      + (docs.filter (fun d => resKeyOf d == some "300dpi")).length
      + (docs.filter (fun d => resKeyOf d == some "400dpi")).length
      + (docs.filter (fun d => resKeyOf d == some "600dpi")).length
      + (docs.filter (fun d => resKeyOf d == none)).length
      = docs.length := by
  induction docs with
  | nil => simp
  | cons d ds ih =>
    have hd := hres d (List.mem_cons_self d ds)
    have ihds := ih (fun x hx => hres x (List.mem_cons_of_mem d hx))
    rcases hd with hd | hd | hd | hd | hd
    · have hkey : resKeyOf d = none := by simp only [resKeyOf, hd]
      simp [List.filter_cons, hkey]
      omega
    · have hkey : resKeyOf d = some "150dpi" := by
        simp only [resKeyOf, hd]; decide
      simp [List.filter_cons, hkey]
      omega
    · have hkey : resKeyOf d = some "300dpi" := by
        simp only [resKeyOf, hd]; decide
      simp [List.filter_cons, hkey]
      omega
    · have hkey : resKeyOf d = some "400dpi" := by
        simp only [resKeyOf, hd]; decide
      simp [List.filter_cons, hkey]
      omega
    · have hkey : resKeyOf d = some "600dpi" := by
        simp only [resKeyOf, hd]; decide
      simp [List.filter_cons, hkey]
      omega

/-- C10: a document with absent resolution contributes to no resolution
bucket (the fold leaves `by_resolution` untouched), and after any sequence of
folds of extractor-produced metadata the resolution buckets' file counts sum
to at most the total file count, strictly less when some folded document had
no detected resolution. -/
theorem c10_resolution_buckets (docs : List Doc)
    (hres : ∀ d ∈ docs, d.meta.resolution = none ∨ d.meta.resolution = some 150
      ∨ d.meta.resolution = some 300 ∨ d.meta.resolution = some 400
      ∨ d.meta.resolution = some 600) :
    (∀ (st : ScanState) (d : Doc), d.meta.resolution = none →
      (foldDoc st d).by_resolution = st.by_resolution) ∧
    ((scanFold docs).by_resolution "150dpi").files
      + ((scanFold docs).by_resolution "300dpi").files
      + ((scanFold docs).by_resolution "400dpi").files
      + ((scanFold docs).by_resolution "600dpi").files
      ≤ (scanFold docs).metadata.total_files ∧
    ((∃ d ∈ docs, d.meta.resolution = none) →
      ((scanFold docs).by_resolution "150dpi").files
        + ((scanFold docs).by_resolution "300dpi").files
        + ((scanFold docs).by_resolution "400dpi").files
        + ((scanFold docs).by_resolution "600dpi").files
        < (scanFold docs).metadata.total_files) := by
  have hcount := c10_count_partition docs hres
  have hfiles : ∀ k : String,
      ((scanFold docs).by_resolution k).files
        = (docs.filter (fun d => resKeyOf d == some k)).length := by
    intro k
    have h := (foldl_res docs initState k).1
    simpa [scanFold, initState] using h
  have htot : (scanFold docs).metadata.total_files = docs.length := by
    have h := (foldl_meta docs initState).1
    simpa [scanFold, initState] using h
  refine ⟨?_, ?_, ?_⟩
  · intro st d hd
    funext k
    simp [foldDoc, hd]
  · rw [hfiles, hfiles, hfiles, hfiles, htot]
    omega
  · rintro ⟨d, hdmem, hdnone⟩
    rw [hfiles, hfiles, hfiles, hfiles, htot]
    have hmem : d ∈ docs.filter (fun d => resKeyOf d == none) := by
      rw [List.mem_filter]
      exact ⟨hdmem, by simp [resKeyOf, hdnone]⟩
    have : 0 < (docs.filter (fun d => resKeyOf d == none)).length :=
      List.length_pos.mpr (List.ne_nil_of_mem hmem)
    omega

/-- C10 witness: one document with a resolution and one without. -/
theorem c10_witness :
    ((scanFold
      [⟨⟨some 1828, "kea".toList, some 300, "in_process", "Other", [], []⟩,
        ⟨10, 50, ⟨1, 2, 3⟩⟩⟩,
       ⟨⟨none, "hen".toList, none, "unknown", "Other", [], []⟩,
        ⟨5, 20, ⟨0, 1, 0⟩⟩⟩]).by_resolution "150dpi").files
      + ((scanFold
      [⟨⟨some 1828, "kea".toList, some 300, "in_process", "Other", [], []⟩,
        ⟨10, 50, ⟨1, 2, 3⟩⟩⟩,
       ⟨⟨none, "hen".toList, none, "unknown", "Other", [], []⟩,
        ⟨5, 20, ⟨0, 1, 0⟩⟩⟩]).by_resolution "300dpi").files
      + ((scanFold
      [⟨⟨some 1828, "kea".toList, some 300, "in_process", "Other", [], []⟩,
        ⟨10, 50, ⟨1, 2, 3⟩⟩⟩,
       ⟨⟨none, "hen".toList, none, "unknown", "Other", [], []⟩,
        ⟨5, 20, ⟨0, 1, 0⟩⟩⟩]).by_resolution "400dpi").files
      + ((scanFold
      [⟨⟨some 1828, "kea".toList, some 300, "in_process", "Other", [], []⟩,
        ⟨10, 50, ⟨1, 2, 3⟩⟩⟩,
       ⟨⟨none, "hen".toList, none, "unknown", "Other", [], []⟩,
        ⟨5, 20, ⟨0, 1, 0⟩⟩⟩]).by_resolution "600dpi").files
      < (scanFold
      [⟨⟨some 1828, "kea".toList, some 300, "in_process", "Other", [], []⟩,
        ⟨10, 50, ⟨1, 2, 3⟩⟩⟩,
       ⟨⟨none, "hen".toList, none, "unknown", "Other", [], []⟩,
        ⟨5, 20, ⟨0, 1, 0⟩⟩⟩]).metadata.total_files :=
  (c10_resolution_buckets _
    (by intro d hd; fin_cases hd <;> simp)).2.2
    ⟨⟨⟨none, "hen".toList, none, "unknown", "Other", [], []⟩,
      ⟨5, 20, ⟨0, 1, 0⟩⟩⟩, by simp, rfl⟩

/-- C1 counterexample: the character-pattern transforms can create new
word-rule matches.  On input `F1om` the word phase changes nothing, but the
capital-digit transform rewrites it to `FIom`, which then matches the word
rule `fiom → from` — so a second pass finds a further word-rule match (and a
second full pass indeed produces `from`). -/
theorem c1_counterexample :
    correct_text ("F1om".toList) = "FIom".toList ∧
    countWB ("fiom".toList) (correct_text ("F1om".toList)) = 1 ∧
    ("fiom".toList, "from".toList) ∈ word_corrections ∧
    correct_text (correct_text ("F1om".toList)) = "from".toList :=
  ⟨by decide, by decide, by decide, by decide⟩

/-! ### Scanner facts for the word-rule phase -/

theorem wordO_beq {p c : Char} (h : (p.toLower == c.toLower) = true)
    (hp : isWordChar p = true) : isWordChar c = true :=
  (ci_word (beq_iff_eq.mp h).symm).trans hp

theorem fireCond_false_of_nonword_head {k : List Char} {prev : Option Char}
    {c : Char} {cs : List Char} (hk : isWordChar (k.headD 'a') = true)
    (hc : isWordChar c = false) : fireCond k prev (c :: cs) = false := by
  cases k with
  | nil => simp [fireCond]
  | cons p ps =>
    apply Bool.eq_false_iff.mpr
    intro hfire
    simp only [fireCond, Bool.and_eq_true, matchesCI] at hfire
    rw [List.headD_cons] at hk
    have := wordO_beq hfire.1.2.1 hk
    rw [hc] at this
    cases this

theorem wordO_some (c : Char) : wordO (some c) = isWordChar c := rfl

theorem fireCond_false_of_no_boundary {k : List Char} {prev : Option Char}
    {c : Char} {cs : List Char} (h : wordO prev = isWordChar c) :
    fireCond k prev (c :: cs) = false := by
  apply Bool.eq_false_iff.mpr
  intro hfire
  simp only [fireCond, Bool.and_eq_true] at hfire
  have hb := hfire.1.1.2
  rw [List.head?_cons, wordO_some, h] at hb
  simp at hb

theorem countWBAux_prev_irrel (k : List Char) :
    ∀ (t : List Char) (n : Nat) (p q : Option Char), wordO p = wordO q →
      countWBAux k n p t = countWBAux k n q t := by
  intro t
  induction t with
  | nil => intro n p q _; simp [countWBAux]
  | cons c cs ih =>
    intro n p q hpq
    match n with
    | m + 1 => simp only [countWBAux]
    | 0 =>
      have hfe : fireCond k p (c :: cs) = fireCond k q (c :: cs) := by
        simp only [fireCond, hpq]
      simp only [countWBAux, hfe]

theorem subWBAux_prev_irrel (k v : List Char) :
    ∀ (t : List Char) (n : Nat) (p q : Option Char), wordO p = wordO q →
      subWBAux k v n p t = subWBAux k v n q t := by
  intro t
  induction t with
  | nil => intro n p q _; simp [subWBAux]
  | cons c cs ih =>
    intro n p q hpq
    match n with
    | m + 1 => simp only [subWBAux]
    | 0 =>
      have hfe : fireCond k p (c :: cs) = fireCond k q (c :: cs) := by
        simp only [fireCond, hpq]
      simp only [subWBAux, hfe]

theorem countWBAux_drain (k : List Char) :
    ∀ (xs rest : List Char) (prev : Option Char),
      countWBAux k xs.length prev (xs ++ rest)
        = countWBAux k 0 (xs.foldl (fun _ c => some c) prev) rest := by
  intro xs
  induction xs with
  | nil => intro rest prev; simp
  | cons c xs' ih =>
    intro rest prev
    simp only [List.cons_append, List.length_cons, countWBAux, List.foldl_cons]
    exact ih rest (some c)

theorem subWBAux_drain (k v : List Char) :
    ∀ (xs rest : List Char) (prev : Option Char),
      subWBAux k v xs.length prev (xs ++ rest)
        = subWBAux k v 0 (xs.foldl (fun _ c => some c) prev) rest := by
  intro xs
  induction xs with
  | nil => intro rest prev; simp
  | cons c xs' ih =>
    intro rest prev
    simp only [List.cons_append, List.length_cons, subWBAux, List.foldl_cons]
    exact ih rest (some c)

theorem foldl_lastOr_mem :
    ∀ (xs : List Char) (p : Option Char),
      xs.foldl (fun _ c => some c) p = p ∨
        ∃ c ∈ xs, xs.foldl (fun _ c => some c) p = some c := by
  intro xs
  induction xs with
  | nil => intro p; exact Or.inl rfl
  | cons c xs' ih =>
    intro p
    rw [List.foldl_cons]
    rcases ih (some c) with h | ⟨d, hd, h⟩
    · exact Or.inr ⟨c, by simp, h⟩
    · exact Or.inr ⟨d, by simp [hd], h⟩

theorem countWBAux_skip_sep (k : List Char) (hk : isWordChar (k.headD 'a') = true) :
    ∀ (r rest : List Char) (prev : Option Char),
      (∀ c ∈ r, isWordChar c = false) →
      countWBAux k 0 prev (r ++ rest)
        = countWBAux k 0 (r.foldl (fun _ c => some c) prev) rest := by
  intro r
  induction r with
  | nil => intro rest prev _; simp
  | cons c r' ih =>
    intro rest prev hr
    have hc : isWordChar c = false := hr c (by simp)
    rw [List.cons_append, List.foldl_cons]
    show countWBAux k 0 prev (c :: (r' ++ rest)) = _
    rw [countWBAux]
    rw [if_neg (by rw [fireCond_false_of_nonword_head hk hc]; simp)]
    exact ih rest (some c) (fun x hx => hr x (by simp [hx]))

theorem subWBAux_skip_sep (k v : List Char) (hk : isWordChar (k.headD 'a') = true) :
    ∀ (r rest : List Char) (prev : Option Char),
      (∀ c ∈ r, isWordChar c = false) →
      subWBAux k v 0 prev (r ++ rest)
        = r ++ subWBAux k v 0 (r.foldl (fun _ c => some c) prev) rest := by
  intro r
  induction r with
  | nil => intro rest prev _; simp
  | cons c r' ih =>
    intro rest prev hr
    have hc : isWordChar c = false := hr c (by simp)
    rw [List.cons_append, List.foldl_cons]
    show subWBAux k v 0 prev (c :: (r' ++ rest)) = _
    rw [subWBAux]
    rw [if_neg (by rw [fireCond_false_of_nonword_head hk hc]; simp)]
    rw [ih rest (some c) (fun x hx => hr x (by simp [hx]))]
    rfl

theorem countWBAux_copy_run (k : List Char)
    (hkh : isWordChar (k.headD 'a') = true) :
    ∀ (r rest : List Char) (prev : Option Char),
      (∀ c ∈ r, isWordChar c = true) →
      fireCond k prev (r ++ rest) = false →
      countWBAux k 0 prev (r ++ rest)
        = countWBAux k 0 (r.foldl (fun _ c => some c) prev) rest := by
  intro r
  induction r with
  | nil => intro rest prev _ _; simp
  | cons c r' ih =>
    intro rest prev hr hnf
    have hc : isWordChar c = true := hr c (by simp)
    rw [List.cons_append, List.foldl_cons]
    rw [List.cons_append] at hnf
    show countWBAux k 0 prev (c :: (r' ++ rest)) = _
    rw [countWBAux, if_neg (by rw [hnf]; simp)]
    apply ih rest (some c) (fun x hx => hr x (by simp [hx]))
    cases hr' : r' ++ rest with
    | nil => simp [fireCond, hr']
    | cons d ds =>
      cases r' with
      | nil =>
        simp only [List.nil_append] at hr'
        subst hr'
        by_cases hd : isWordChar d = true
        · exact fireCond_false_of_no_boundary (by rw [wordO_some, hc, hd])
        · exact fireCond_false_of_nonword_head hkh
            (Bool.eq_false_iff.mpr hd)
      | cons e r'' =>
        have he : isWordChar e = true := hr e (by simp)
        have hd : d = e := by
          simp only [List.cons_append, List.cons.injEq] at hr'
          exact hr'.1.symm
        apply fireCond_false_of_no_boundary
        rw [wordO_some, hc, hd, he]

theorem subWBAux_copy_run (k v : List Char)
    (hkh : isWordChar (k.headD 'a') = true) :
    ∀ (r rest : List Char) (prev : Option Char),
      (∀ c ∈ r, isWordChar c = true) →
      fireCond k prev (r ++ rest) = false →
      subWBAux k v 0 prev (r ++ rest)
        = r ++ subWBAux k v 0 (r.foldl (fun _ c => some c) prev) rest := by
  intro r
  induction r with
  | nil => intro rest prev _ _; simp
  | cons c r' ih =>
    intro rest prev hr hnf
    have hc : isWordChar c = true := hr c (by simp)
    rw [List.cons_append, List.foldl_cons]
    rw [List.cons_append] at hnf
    show subWBAux k v 0 prev (c :: (r' ++ rest)) = _
    rw [subWBAux, if_neg (by rw [hnf]; simp)]
    rw [ih rest (some c) (fun x hx => hr x (by simp [hx])) ?_]
    · rfl
    · cases hr' : r' ++ rest with
      | nil => simp [fireCond, hr']
      | cons d ds =>
        cases r' with
        | nil =>
          simp only [List.nil_append] at hr'
          subst hr'
          by_cases hd : isWordChar d = true
          · exact fireCond_false_of_no_boundary (by rw [wordO_some, hc, hd])
          · exact fireCond_false_of_nonword_head hkh
              (Bool.eq_false_iff.mpr hd)
        | cons e r'' =>
          have he : isWordChar e = true := hr e (by simp)
          have hd : d = e := by
            simp only [List.cons_append, List.cons.injEq] at hr'
            exact hr'.1.symm
          apply fireCond_false_of_no_boundary
          rw [wordO_some, hc, hd, he]

theorem matchesCI_le_run {k : List Char} (hkw : ∀ x ∈ k, isWordChar x = true) :
    ∀ (r rest : List Char), (∀ c ∈ r, isWordChar c = true) →
      wordO rest.head? = false →
      matchesCI k (r ++ rest) = true → k.length ≤ r.length := by
  induction k with
  | nil => intro r rest _ _ _; simp
  | cons p ps ih =>
    intro r rest hrw hrest hm
    cases r with
    | nil =>
      exfalso
      simp only [List.nil_append] at hm
      cases rest with
      | nil => simp [matchesCI] at hm
      | cons d ds =>
        simp only [matchesCI, Bool.and_eq_true] at hm
        have hd := wordO_beq hm.1 (hkw p (by simp))
        rw [List.head?_cons, wordO_some, hd] at hrest
        cases hrest
    | cons c r' =>
      simp only [List.cons_append, matchesCI, Bool.and_eq_true] at hm
      have := ih (fun x hx => hkw x (by simp [hx])) r' rest
        (fun x hx => hrw x (by simp [hx])) hrest hm.2
      simp only [List.length_cons]
      omega

theorem matchesCI_of_ciEq {k r : List Char} (h : ciEq k r = true) :
    ∀ rest, matchesCI k (r ++ rest) = true := by
  induction k generalizing r with
  | nil => intro rest; simp [matchesCI]
  | cons p ps ih =>
    intro rest
    cases r with
    | nil => simp [ciEq] at h
    | cons c r' =>
      simp only [ciEq, Bool.and_eq_true] at h
      simp only [List.cons_append, matchesCI, Bool.and_eq_true]
      exact ⟨h.1, ih h.2 rest⟩

theorem matchesCI_ciEq_take {k : List Char} :
    ∀ t, matchesCI k t = true → ciEq k (t.take k.length) = true := by
  induction k with
  | nil => intro t _; simp [ciEq]
  | cons p ps ih =>
    intro t hm
    cases t with
    | nil => simp [matchesCI] at hm
    | cons c cs =>
      simp only [matchesCI, Bool.and_eq_true] at hm
      simp only [List.length_cons, List.take_succ_cons, ciEq, Bool.and_eq_true]
      exact ⟨hm.1, ih cs hm.2⟩

theorem ciEq_of_matchesCI_append {k r rest : List Char}
    (hlen : k.length = r.length) (hm : matchesCI k (r ++ rest) = true) :
    ciEq k r = true := by
  have := matchesCI_ciEq_take (r ++ rest) hm
  rwa [hlen, List.take_left] at this

theorem fire_iff_pure {k r rest : List Char} {prev : Option Char}
    (hk : k ≠ []) (hkw : ∀ x ∈ k, isWordChar x = true)
    (hr : r ≠ []) (hrw : ∀ c ∈ r, isWordChar c = true)
    (hrest : wordO rest.head? = false) (hprev : wordO prev = false) :
    fireCond k prev (r ++ rest) = ciEq k r := by
  by_cases hciq : ciEq k r = true
  · rw [hciq]
    have hlen := ciEq_length hciq
    have hb1 : (wordO prev != wordO (r ++ rest).head?) = true := by
      cases r with
      | nil => exact absurd rfl hr
      | cons c r' =>
        rw [List.cons_append, List.head?_cons, wordO_some, hrw c (by simp), hprev]
        rfl
    have htake : (r ++ rest).take k.length = r := by
      rw [hlen, List.take_left]
    have hdrop : (r ++ rest).drop k.length = rest := by
      rw [hlen, List.drop_left]
    have hlast : wordO r.getLast? = true := by
      rw [List.getLast?_eq_getLast r hr, wordO_some]
      exact hrw _ (List.getLast_mem hr)
    simp only [fireCond, List.isEmpty_eq_false.mpr hk, Bool.not_false, hb1,
      matchesCI_of_ciEq hciq rest, htake, hdrop, hlast, hrest, Bool.true_and]
    rfl
  · rw [Bool.eq_false_iff.mpr hciq]
    apply Bool.eq_false_iff.mpr
    intro hfire
    simp only [fireCond, Bool.and_eq_true] at hfire
    have hm := hfire.1.2
    have hle := matchesCI_le_run hkw r rest hrw hrest hm
    have hlt : k.length < r.length ∨ k.length = r.length := by omega
    rcases hlt with hlt | hlen
    · have hafter := hfire.2
      have htake : (r ++ rest).take k.length = r.take k.length := by
        rw [List.take_append_of_le_length (by omega)]
      have hdrop : (r ++ rest).drop k.length = r.drop k.length ++ rest := by
        rw [List.drop_append_of_le_length (by omega)]
      have hd_ne : r.drop k.length ≠ [] := by
        intro h
        have := congrArg List.length h
        simp only [List.length_drop, List.length_nil] at this
        omega
      have ht_ne : r.take k.length ≠ [] := by
        intro h
        have := congrArg List.length h
        rw [List.length_take] at this
        simp only [List.length_nil] at this
        have : k.length = 0 := by omega
        exact hk (List.length_eq_zero.mp this)
      have hlast : wordO ((r ++ rest).take k.length).getLast? = true := by
        rw [htake, List.getLast?_eq_getLast _ ht_ne, wordO_some]
        exact hrw _ (List.take_subset _ _ (List.getLast_mem ht_ne))
      have hhead : wordO ((r ++ rest).drop k.length).head? = true := by
        rw [hdrop]
        cases hdd : r.drop k.length with
        | nil => exact absurd hdd hd_ne
        | cons d ds =>
          rw [List.cons_append, List.head?_cons, wordO_some]
          have : d ∈ r := List.drop_subset _ _ (by rw [hdd]; simp)
          exact hrw d this
      rw [hlast, hhead] at hafter
      cases hafter
    · exact hciq (ciEq_of_matchesCI_append hlen hm)

theorem headD_word {k : List Char} (hk : k ≠ [])
    (hkw : ∀ x ∈ k, isWordChar x = true) : isWordChar (k.headD 'a') = true := by
  cases k with
  | nil => exact absurd rfl hk
  | cons p ps => rw [List.headD_cons]; exact hkw p (by simp)

theorem foldl_some_of_ne_nil {r : List Char} (hr : r ≠ []) (p : Option Char) :
    ∃ c ∈ r, r.foldl (fun _ x => some x) p = some c := by
  cases r with
  | nil => exact absurd rfl hr
  | cons c r' =>
    rw [List.foldl_cons]
    rcases foldl_lastOr_mem r' (some c) with h | ⟨d, hd, h⟩
    · exact ⟨c, by simp, h⟩
    · exact ⟨d, by simp [hd], h⟩

theorem join_head_nonword {L : List (List Char)} (hL : Alt (some true) L) :
    wordO L.flatten.head? = false := by
  cases hL with
  | nil => simp [wordO]
  | cons b w r L hr hw hne hL' =>
    cases r with
    | nil => exact absurd rfl hr
    | cons c r' =>
      have hw' : isWordChar c = w := hw c (by simp)
      have : w = false := by
        cases w with
        | true => exact absurd rfl hne
        | false => rfl
      rw [List.flatten_cons, List.cons_append, List.head?_cons, wordO_some, hw', this]

theorem ciEq_false_of_sep {k r : List Char} (hk : k ≠ [])
    (hkw : ∀ x ∈ k, isWordChar x = true)
    (hr : r = [] ∨ isWordChar (r.headD 'a') = false) : ciEq k r = false := by
  cases k with
  | nil => exact absurd rfl hk
  | cons p ps =>
    cases r with
    | nil => rfl
    | cons c r' =>
      rcases hr with hr | hr
      · cases hr
      · rw [List.headD_cons] at hr
        apply Bool.eq_false_iff.mpr
        intro hciq
        simp only [ciEq, Bool.and_eq_true] at hciq
        have := wordO_beq hciq.1 (hkw p (by simp))
        rw [hr] at this
        cases this

theorem count_join_pure {k : List Char} (hk : k ≠ [])
    (hkw : ∀ x ∈ k, isWordChar x = true) :
    ∀ (L : List (List Char)) (b : Option Bool) (prev : Option Char),
      Alt b L → wordO prev = bOf b →
      countWBAux k 0 prev L.flatten = (L.filter (fun w => ciEq k w)).length := by
  intro L
  induction L with
  | nil => intro b prev _ _; simp [countWBAux]
  | cons r L' ih =>
    intro b prev hA hprev
    cases hA with
    | cons b w r L' hr hw hne hL' =>
      rw [List.flatten_cons]
      cases w with
      | false =>
        rw [countWBAux_skip_sep k (headD_word hk hkw) r L'.flatten prev
          (fun c hc => hw c hc)]
        obtain ⟨c, hc, hfold⟩ := foldl_some_of_ne_nil hr prev
        have hw' : wordO (r.foldl (fun _ x => some x) prev) = bOf (some false) := by
          rw [hfold, wordO_some, hw c hc]
          rfl
        rw [ih (some false) _ hL' hw']
        rw [List.filter_cons,
          if_neg (by rw [ciEq_false_of_sep hk hkw (Or.inr ?_)]; simp
                     cases r with
                     | nil => exact absurd rfl hr
                     | cons c0 r0 => rw [List.headD_cons]; exact hw c0 (by simp))]
      | true =>
        have hprev' : wordO prev = false := by
          rw [hprev]
          cases b with
          | none => rfl
          | some bb =>
            cases bb with
            | true => exact absurd rfl hne
            | false => rfl
        have hrest : wordO L'.flatten.head? = false := join_head_nonword hL'
        have hfire := fire_iff_pure hk hkw hr (fun c hc => hw c hc) hrest hprev'
        by_cases hciq : ciEq k r = true
        · rw [hciq] at hfire
          cases r with
          | nil => exact absurd rfl hr
          | cons c r1 =>
            rw [List.cons_append, countWBAux, if_pos (by rw [← List.cons_append, hfire])]
            have hlen : k.length - 1 = r1.length := by
              have := ciEq_length hciq
              simp only [List.length_cons] at this
              omega
            rw [hlen, countWBAux_drain]
            obtain ⟨d, hd, hfold⟩ : ∃ d ∈ c :: r1,
                r1.foldl (fun _ x => some x) (some c) = some d := by
              rcases foldl_lastOr_mem r1 (some c) with h | ⟨d, hd, h⟩
              · exact ⟨c, by simp, h⟩
              · exact ⟨d, by simp [hd], h⟩
            have hwfold : wordO (r1.foldl (fun _ x => some x) (some c))
                = bOf (some true) := by
              rw [hfold, wordO_some, hw d hd]
              rfl
            rw [ih (some true) _ hL' hwfold]
            rw [List.filter_cons, if_pos (by rw [hciq])]
            simp only [List.length_cons]
            omega
        · rw [Bool.eq_false_iff.mpr hciq] at hfire
          rw [countWBAux_copy_run k (headD_word hk hkw) r L'.flatten prev
            (fun c hc => hw c hc) hfire]
          obtain ⟨d, hd, hfold⟩ := foldl_some_of_ne_nil hr prev
          have hwfold : wordO (r.foldl (fun _ x => some x) prev)
              = bOf (some true) := by
            rw [hfold, wordO_some, hw d hd]
            rfl
          rw [ih (some true) _ hL' hwfold]
          rw [List.filter_cons, if_neg (by rw [Bool.eq_false_iff.mpr hciq]; simp)]

theorem sub_join_pure {k v : List Char} (hk : k ≠ [])
    (hkw : ∀ x ∈ k, isWordChar x = true) :
    ∀ (L : List (List Char)) (b : Option Bool) (prev : Option Char),
      Alt b L → wordO prev = bOf b →
      subWBAux k v 0 prev L.flatten = (L.map (tokenMap k v)).flatten := by
  intro L
  induction L with
  | nil => intro b prev _ _; simp [subWBAux]
  | cons r L' ih =>
    intro b prev hA hprev
    cases hA with
    | cons b w r L' hr hw hne hL' =>
      rw [List.flatten_cons, List.map_cons, List.flatten_cons]
      cases w with
      | false =>
        rw [subWBAux_skip_sep k v (headD_word hk hkw) r L'.flatten prev
          (fun c hc => hw c hc)]
        obtain ⟨c, hc, hfold⟩ := foldl_some_of_ne_nil hr prev
        have hw' : wordO (r.foldl (fun _ x => some x) prev) = bOf (some false) := by
          rw [hfold, wordO_some, hw c hc]
          rfl
        rw [ih (some false) _ hL' hw']
        have hmap : tokenMap k v r = r := by
          rw [tokenMap, if_neg]
          rw [ciEq_false_of_sep hk hkw (Or.inr ?_)]
          · simp
          · cases r with
            | nil => exact absurd rfl hr
            | cons c0 r0 => rw [List.headD_cons]; exact hw c0 (by simp)
        rw [hmap]
      | true =>
        have hprev' : wordO prev = false := by
          rw [hprev]
          cases b with
          | none => rfl
          | some bb =>
            cases bb with
            | true => exact absurd rfl hne
            | false => rfl
        have hrest : wordO L'.flatten.head? = false := join_head_nonword hL'
        have hfire := fire_iff_pure hk hkw hr (fun c hc => hw c hc) hrest hprev'
        by_cases hciq : ciEq k r = true
        · rw [hciq] at hfire
          cases r with
          | nil => exact absurd rfl hr
          | cons c r1 =>
            rw [List.cons_append, subWBAux, if_pos (by rw [← List.cons_append, hfire])]
            have hlen : k.length - 1 = r1.length := by
              have := ciEq_length hciq
              simp only [List.length_cons] at this
              omega
            rw [hlen, subWBAux_drain]
            obtain ⟨d, hd, hfold⟩ : ∃ d ∈ c :: r1,
                r1.foldl (fun _ x => some x) (some c) = some d := by
              rcases foldl_lastOr_mem r1 (some c) with h | ⟨d, hd, h⟩
              · exact ⟨c, by simp, h⟩
              · exact ⟨d, by simp [hd], h⟩
            have hwfold : wordO (r1.foldl (fun _ x => some x) (some c))
                = bOf (some true) := by
              rw [hfold, wordO_some, hw d hd]
              rfl
            rw [ih (some true) _ hL' hwfold]
            rw [tokenMap, if_pos hciq]
        · rw [Bool.eq_false_iff.mpr hciq] at hfire
          rw [subWBAux_copy_run k v (headD_word hk hkw) r L'.flatten prev
            (fun c hc => hw c hc) hfire]
          obtain ⟨d, hd, hfold⟩ := foldl_some_of_ne_nil hr prev
          have hwfold : wordO (r.foldl (fun _ x => some x) prev)
              = bOf (some true) := by
            rw [hfold, wordO_some, hw d hd]
            rfl
          rw [ih (some true) _ hL' hwfold]
          rw [tokenMap, if_neg (by rw [Bool.eq_false_iff.mpr hciq]; simp)]

theorem matchesCI_false_of_word_head {p : Char} {ps t : List Char}
    (hp : isWordChar p = true) (ht : wordO t.head? = false) :
    matchesCI (p :: ps) t = false := by
  cases t with
  | nil => rfl
  | cons c cs =>
    rw [List.head?_cons, wordO_some] at ht
    apply Bool.eq_false_iff.mpr
    intro hm
    simp only [matchesCI, Bool.and_eq_true] at hm
    have := wordO_beq hm.1 hp
    rw [ht] at this
    cases this

theorem fire_denee_shape {r : List Char} {L' : List (List Char)}
    {prev : Option Char} (hr : r ≠ [])
    (hrw : ∀ c ∈ r, isWordChar c = true) (hL' : Alt (some true) L')
    (hfire : fireCond deneeKey prev (r ++ L'.flatten) = true) :
    ciEq ("den".toList) r = true ∧
      ∃ r2 L'', L' = ['.'] :: r2 :: L'' ∧ ciEq ("ee".toList) r2 = true := by
  have hkey : deneeKey = ['d', 'e', 'n', '.', 'e', 'e'] := rfl
  simp only [fireCond, Bool.and_eq_true] at hfire
  obtain ⟨⟨⟨-, -⟩, hm⟩, hafter⟩ := hfire
  rw [hkey] at hm hafter
  have hjoin : wordO L'.flatten.head? = false := join_head_nonword hL'
  match r, hr, hrw, hm, hafter with
  | [a], _, hrw, hm, hafter =>
    exfalso
    simp only [List.cons_append, List.nil_append, List.append_eq, matchesCI,
      Bool.and_eq_true] at hm
    rw [matchesCI_false_of_word_head (by decide) hjoin] at hm
    exact absurd hm.2 (by simp)
  | [a, b], _, hrw, hm, hafter =>
    exfalso
    simp only [List.cons_append, List.nil_append, List.append_eq, matchesCI,
      Bool.and_eq_true] at hm
    rw [matchesCI_false_of_word_head (by decide) hjoin] at hm
    exact absurd hm.2.2 (by simp)
  | a :: b :: c :: x :: r', _, hrw, hm, hafter =>
    exfalso
    simp only [List.cons_append, List.append_eq, matchesCI,
      Bool.and_eq_true] at hm
    have hcw := ci_word (beq_iff_eq.mp hm.2.2.2.1)
    rw [hrw x (by simp)] at hcw
    exact absurd hcw (by decide)
  | [a, b, c], _, hrw, hm, hafter =>
    simp only [List.cons_append, List.nil_append, List.append_eq, matchesCI,
      Bool.and_eq_true] at hm
    obtain ⟨ha, hb, hc, hrest⟩ := hm
    cases hL' with
    | nil => simp [matchesCI] at hrest
    | cons _ w s L2 hs hws hnes hL2 =>
      have hw0 : w = false := by
        cases w with
        | true => exact absurd rfl hnes
        | false => rfl
      subst hw0
      cases s with
      | nil => exact absurd rfl hs
      | cons x s1 =>
        rw [List.flatten_cons, List.cons_append] at hrest
        simp only [matchesCI, Bool.and_eq_true] at hrest
        have hx : x = '.' :=
          (ci_nonword_eq (beq_iff_eq.mp hrest.1) (by decide)).symm
        subst hx
        cases s1 with
        | cons x1 s2 =>
          exfalso
          rw [List.cons_append] at hrest
          have hrest2 := hrest.2
          rw [matchesCI_false_of_word_head (by decide)
            (by rw [List.head?_cons, wordO_some]; exact hws x1 (by simp))] at hrest2
          exact absurd hrest2 (by simp)
        | nil =>
          cases hL2 with
          | nil => simp [matchesCI] at hrest
          | cons _ w2 r2 L3 hr2 hw2 hne2 hL3 =>
            have hw2t : w2 = true := by
              cases w2 with
              | false => exact absurd rfl hne2
              | true => rfl
            subst hw2t
            cases r2 with
            | nil => exact absurd rfl hr2
            | cons y r21 =>
              rw [List.flatten_cons, List.cons_append] at hrest
              have hrest2 := hrest.2
              simp only [matchesCI, Bool.and_eq_true] at hrest2
              cases r21 with
              | nil =>
                exfalso
                rw [List.nil_append] at hrest2
                rw [matchesCI_false_of_word_head (by decide)
                  (join_head_nonword hL3)] at hrest2
                exact absurd hrest2.2 (by simp)
              | cons z r22 =>
                rw [List.cons_append] at hrest2
                have hz := hrest2.2
                simp only [matchesCI, Bool.and_eq_true] at hz
                have hr22 : r22 = [] := by
                  cases hcase : r22 with
                  | nil => rfl
                  | cons u r23 =>
                    exfalso
                    subst hcase
                    have hzw : isWordChar z = true := hw2 z (by simp)
                    have huw : isWordChar u = true := hw2 u (by simp)
                    have hafter2 : (isWordChar z != isWordChar u) = true :=
                      hafter
                    rw [hzw, huw] at hafter2
                    simp at hafter2
                subst hr22
                refine ⟨?_, [y, z], L3, rfl, ?_⟩
                · show (('d'.toLower == a.toLower) &&
                    (('e'.toLower == b.toLower) &&
                      (('n'.toLower == c.toLower) && true))) = true
                  rw [ha, hb, hc]
                  rfl
                · show (('e'.toLower == y.toLower) &&
                    (('e'.toLower == z.toLower) && true)) = true
                  rw [hrest2.1, hz.1]
                  rfl

theorem denee_r_shape {r : List Char} (h : ciEq "den".toList r = true) :
    ∃ a b c, r = [a, b, c] := by
  have h3 : r.length = 3 := (ciEq_length h).symm
  match r, h3 with
  | [a, b, c], _ => exact ⟨a, b, c, rfl⟩

theorem denee_r2_shape {r : List Char} (h : ciEq "ee".toList r = true) :
    ∃ y z, r = [y, z] := by
  have h2 : r.length = 2 := (ciEq_length h).symm
  match r, h2 with
  | [y, z], _ => exact ⟨y, z, rfl⟩

theorem fire_denee_true {r r2 rest : List Char} {prev : Option Char}
    (hden : ciEq "den".toList r = true) (hee : ciEq "ee".toList r2 = true)
    (hprev : wordO prev = false) (hrest : wordO rest.head? = false) :
    fireCond deneeKey prev (r ++ '.' :: (r2 ++ rest)) = true := by
  obtain ⟨a, b, c, rfl⟩ := denee_r_shape hden
  obtain ⟨y, z, rfl⟩ := denee_r2_shape hee
  have hden' : (('d'.toLower == a.toLower) &&
      (('e'.toLower == b.toLower) && (('n'.toLower == c.toLower) && true)))
      = true := hden
  have hee' : (('e'.toLower == y.toLower) &&
      (('e'.toLower == z.toLower) && true)) = true := hee
  simp only [Bool.and_true, Bool.and_eq_true] at hden' hee'
  obtain ⟨ha, hb, hc⟩ := hden'
  obtain ⟨hy, hz⟩ := hee'
  have haw : isWordChar a = true := wordO_beq ha (by decide)
  have hzw : isWordChar z = true := wordO_beq hz (by decide)
  show fireCond deneeKey prev (a :: b :: c :: '.' :: y :: z :: rest) = true
  have hm : matchesCI deneeKey (a :: b :: c :: '.' :: y :: z :: rest)
      = true := by
    show (('d'.toLower == a.toLower) && (('e'.toLower == b.toLower) &&
      (('n'.toLower == c.toLower) && (('.'.toLower == '.'.toLower) &&
      (('e'.toLower == y.toLower) && (('e'.toLower == z.toLower) &&
        true)))))) = true
    rw [ha, hb, hc, hy, hz]
    rfl
  have ht : (a :: b :: c :: '.' :: y :: z :: rest).take deneeKey.length
      = [a, b, c, '.', y, z] := rfl
  have hd : (a :: b :: c :: '.' :: y :: z :: rest).drop deneeKey.length
      = rest := rfl
  have hafter : (wordO ((a :: b :: c :: '.' :: y :: z :: rest).take
        deneeKey.length).getLast? !=
      wordO ((a :: b :: c :: '.' :: y :: z :: rest).drop
        deneeKey.length).head?) = true := by
    rw [ht, hd]
    have hlz : ([a, b, c, '.', y, z] : List Char).getLast? = some z := by simp
    rw [hlz, wordO_some, hzw, hrest]
    rfl
  simp only [fireCond, hm, hafter, List.head?_cons, wordO_some, haw, hprev]
  rfl

theorem deneeCount_cons_eq {r : List Char} {L : List (List Char)}
    (h : ∀ s r2 L3, L = s :: r2 :: L3 →
      ¬(ciEq "den".toList r = true ∧ s = ['.'] ∧
        ciEq "ee".toList r2 = true)) :
    deneeCount (r :: L) = deneeCount L := by
  match L with
  | [] => rfl
  | [s] => rfl
  | s :: r2 :: L3 =>
    rw [deneeCount, if_neg (h s r2 L3 rfl)]

theorem deneeCollapse_cons_eq {r : List Char} {L : List (List Char)}
    (h : ∀ s r2 L3, L = s :: r2 :: L3 →
      ¬(ciEq "den".toList r = true ∧ s = ['.'] ∧
        ciEq "ee".toList r2 = true)) :
    deneeCollapse (r :: L) = r :: deneeCollapse L := by
  match L with
  | [] => rfl
  | [s] => rfl
  | s :: r2 :: L3 =>
    rw [deneeCollapse, if_neg (h s r2 L3 rfl)]

theorem alt_cons_inv {b : Option Bool} {r : List Char} {L : List (List Char)}
    (h : Alt b (r :: L)) : ∃ w, r ≠ [] ∧ (∀ c ∈ r, isWordChar c = w) ∧
      b ≠ some w ∧ Alt (some w) L := by
  cases h with
  | cons b w r L hr hw hne hL => exact ⟨w, hr, hw, hne, hL⟩

theorem count_join_denee :
    ∀ (n : Nat) (L : List (List Char)) (b : Option Bool) (prev : Option Char),
      L.length ≤ n → Alt b L → wordO prev = bOf b →
      countWBAux deneeKey 0 prev L.flatten = deneeCount L := by
  intro n
  induction n with
  | zero =>
    intro L b prev hlen hA hprev
    have hnil : L = [] := List.length_eq_zero.mp (Nat.le_zero.mp hlen)
    subst hnil
    rfl
  | succ n ih =>
    intro L b prev hlen hA hprev
    cases hA with
    | nil => rfl
    | cons b w r L2 hr hw hne hL2 =>
      rw [List.flatten_cons]
      cases w with
      | false =>
        rw [countWBAux_skip_sep deneeKey (by decide) r L2.flatten prev
          (fun c hc => hw c hc)]
        obtain ⟨c, hc, hfold⟩ := foldl_some_of_ne_nil hr prev
        have hw' : wordO (r.foldl (fun _ x => some x) prev)
            = bOf (some false) := by
          rw [hfold, wordO_some, hw c hc]
          rfl
        rw [ih L2 (some false) _ (by simp at hlen; omega) hL2 hw']
        have hsep : ciEq ['d', 'e', 'n'] r = false := by
          apply ciEq_false_of_sep (by decide) (by decide) (Or.inr ?_)
          cases r with
          | nil => exact absurd rfl hr
          | cons c0 r0 => rw [List.headD_cons]; exact hw c0 (by simp)
        rw [deneeCount_cons_eq (fun s r2 L3 heq hg => absurd hg.1
          (by simp [hsep]))]
      | true =>
        have hprev' : wordO prev = false := by
          rw [hprev]
          cases b with
          | none => rfl
          | some bb =>
            cases bb with
            | true => exact absurd rfl hne
            | false => rfl
        by_cases hf : fireCond deneeKey prev (r ++ L2.flatten) = true
        · obtain ⟨hden, r2, L3, rfl, hee⟩ :=
            fire_denee_shape hr (fun c hc => hw c hc) hL2 hf
          obtain ⟨w1, hs, hws, hnes, hL2'⟩ := alt_cons_inv hL2
          obtain ⟨w2, hr2, hw2, hne2, hL3⟩ := alt_cons_inv hL2'
          have hw1 : w1 = false := (hws '.' (by simp)).symm.trans (by decide)
          subst hw1
          have hw2t : w2 = true := by
            cases w2 with
            | false => exact absurd rfl hne2
            | true => rfl
          subst hw2t
          obtain ⟨a, b1, c1, rfl⟩ := denee_r_shape hden
          obtain ⟨y, z, rfl⟩ := denee_r2_shape hee
          show countWBAux deneeKey 0 prev
            (a :: b1 :: c1 :: '.' :: y :: z :: L3.flatten) = _
          rw [countWBAux, if_pos (show fireCond deneeKey prev
            (a :: b1 :: c1 :: '.' :: y :: z :: L3.flatten) = true from hf)]
          show 1 + countWBAux deneeKey
            ([b1, c1, '.', y, z] : List Char).length (some a)
            ([b1, c1, '.', y, z] ++ L3.flatten) = _
          rw [countWBAux_drain]
          have hfold : ([b1, c1, '.', y, z] : List Char).foldl
              (fun _ x => some x) (some a) = some z := rfl
          have hzw : isWordChar z = true := hw2 z (by simp)
          rw [hfold, ih L3 (some true) (some z) (by simp at hlen; omega) hL3
            (by rw [wordO_some, hzw]; rfl)]
          rw [deneeCount, if_pos ⟨hden, rfl, hee⟩]
        · have hf' : fireCond deneeKey prev (r ++ L2.flatten) = false :=
            Bool.eq_false_iff.mpr hf
          rw [countWBAux_copy_run deneeKey (by decide) r L2.flatten prev
            (fun c hc => hw c hc) hf']
          obtain ⟨d, hd, hfold⟩ := foldl_some_of_ne_nil hr prev
          have hw' : wordO (r.foldl (fun _ x => some x) prev)
              = bOf (some true) := by
            rw [hfold, wordO_some, hw d hd]
            rfl
          rw [ih L2 (some true) _ (by simp at hlen; omega) hL2 hw']
          have hnog : ∀ s r2 L3, L2 = s :: r2 :: L3 →
              ¬(ciEq "den".toList r = true ∧ s = ['.'] ∧
                ciEq "ee".toList r2 = true) := by
            intro s r2 L3 heq hg
            obtain ⟨h1, h2, h3⟩ := hg
            subst heq
            subst h2
            obtain ⟨w1, hs, hws, hnes, hL2'⟩ := alt_cons_inv hL2
            obtain ⟨w2, hr2, hw2, hne2, hL3⟩ := alt_cons_inv hL2'
            have hw1 : w1 = false := (hws '.' (by simp)).symm.trans (by decide)
            subst hw1
            have hw2t : w2 = true := by
              cases w2 with
              | false => exact absurd rfl hne2
              | true => rfl
            subst hw2t
            exact hf (@fire_denee_true r r2 L3.flatten prev h1 h3 hprev'
              (join_head_nonword hL3))
          rw [deneeCount_cons_eq hnog]

theorem sub_join_denee :
    ∀ (n : Nat) (L : List (List Char)) (b : Option Bool) (prev : Option Char),
      L.length ≤ n → Alt b L → wordO prev = bOf b →
      subWBAux deneeKey "defence".toList 0 prev L.flatten
        = (deneeCollapse L).flatten := by
  intro n
  induction n with
  | zero =>
    intro L b prev hlen hA hprev
    have hnil : L = [] := List.length_eq_zero.mp (Nat.le_zero.mp hlen)
    subst hnil
    rfl
  | succ n ih =>
    intro L b prev hlen hA hprev
    cases hA with
    | nil => rfl
    | cons b w r L2 hr hw hne hL2 =>
      rw [List.flatten_cons]
      cases w with
      | false =>
        rw [subWBAux_skip_sep deneeKey "defence".toList (by decide) r
          L2.flatten prev (fun c hc => hw c hc)]
        obtain ⟨c, hc, hfold⟩ := foldl_some_of_ne_nil hr prev
        have hw' : wordO (r.foldl (fun _ x => some x) prev)
            = bOf (some false) := by
          rw [hfold, wordO_some, hw c hc]
          rfl
        rw [ih L2 (some false) _ (by simp at hlen; omega) hL2 hw']
        have hsep : ciEq ['d', 'e', 'n'] r = false := by
          apply ciEq_false_of_sep (by decide) (by decide) (Or.inr ?_)
          cases r with
          | nil => exact absurd rfl hr
          | cons c0 r0 => rw [List.headD_cons]; exact hw c0 (by simp)
        rw [deneeCollapse_cons_eq (fun s r2 L3 heq hg => absurd hg.1
          (by simp [hsep]))]
        rw [List.flatten_cons]
      | true =>
        have hprev' : wordO prev = false := by
          rw [hprev]
          cases b with
          | none => rfl
          | some bb =>
            cases bb with
            | true => exact absurd rfl hne
            | false => rfl
        by_cases hf : fireCond deneeKey prev (r ++ L2.flatten) = true
        · obtain ⟨hden, r2, L3, rfl, hee⟩ :=
            fire_denee_shape hr (fun c hc => hw c hc) hL2 hf
          obtain ⟨w1, hs, hws, hnes, hL2'⟩ := alt_cons_inv hL2
          obtain ⟨w2, hr2, hw2, hne2, hL3⟩ := alt_cons_inv hL2'
          have hw1 : w1 = false := (hws '.' (by simp)).symm.trans (by decide)
          subst hw1
          have hw2t : w2 = true := by
            cases w2 with
            | false => exact absurd rfl hne2
            | true => rfl
          subst hw2t
          obtain ⟨a, b1, c1, rfl⟩ := denee_r_shape hden
          obtain ⟨y, z, rfl⟩ := denee_r2_shape hee
          show subWBAux deneeKey "defence".toList 0 prev
            (a :: b1 :: c1 :: '.' :: y :: z :: L3.flatten) = _
          rw [subWBAux, if_pos (show fireCond deneeKey prev
            (a :: b1 :: c1 :: '.' :: y :: z :: L3.flatten) = true from hf)]
          show "defence".toList ++ subWBAux deneeKey "defence".toList
            ([b1, c1, '.', y, z] : List Char).length (some a)
            ([b1, c1, '.', y, z] ++ L3.flatten) = _
          rw [subWBAux_drain]
          have hfold : ([b1, c1, '.', y, z] : List Char).foldl
              (fun _ x => some x) (some a) = some z := rfl
          have hzw : isWordChar z = true := hw2 z (by simp)
          rw [hfold, ih L3 (some true) (some z) (by simp at hlen; omega) hL3
            (by rw [wordO_some, hzw]; rfl)]
          rw [deneeCollapse, if_pos ⟨hden, rfl, hee⟩]
          rw [List.flatten_cons]
        · have hf' : fireCond deneeKey prev (r ++ L2.flatten) = false :=
            Bool.eq_false_iff.mpr hf
          rw [subWBAux_copy_run deneeKey "defence".toList (by decide) r
            L2.flatten prev (fun c hc => hw c hc) hf']
          obtain ⟨d, hd, hfold⟩ := foldl_some_of_ne_nil hr prev
          have hw' : wordO (r.foldl (fun _ x => some x) prev)
              = bOf (some true) := by
            rw [hfold, wordO_some, hw d hd]
            rfl
          rw [ih L2 (some true) _ (by simp at hlen; omega) hL2 hw']
          have hnog : ∀ s r2 L3, L2 = s :: r2 :: L3 →
              ¬(ciEq "den".toList r = true ∧ s = ['.'] ∧
                ciEq "ee".toList r2 = true) := by
            intro s r2 L3 heq hg
            obtain ⟨h1, h2, h3⟩ := hg
            subst heq
            subst h2
            obtain ⟨w1, hs, hws, hnes, hL2'⟩ := alt_cons_inv hL2
            obtain ⟨w2, hr2, hw2, hne2, hL3⟩ := alt_cons_inv hL2'
            have hw1 : w1 = false := (hws '.' (by simp)).symm.trans (by decide)
            subst hw1
            have hw2t : w2 = true := by
              cases w2 with
              | false => exact absurd rfl hne2
              | true => rfl
            subst hw2t
            exact hf (@fire_denee_true r r2 L3.flatten prev h1 h3 hprev'
              (join_head_nonword hL3))
          rw [deneeCollapse_cons_eq hnog]
          rw [List.flatten_cons]

theorem dropWhile_head_false (p : Char → Bool) :
    ∀ (l : List Char) (c : Char) (cs : List Char),
      l.dropWhile p = c :: cs → p c = false := by
  intro l
  induction l with
  | nil => intro c cs h; simp [List.dropWhile] at h
  | cons x xs ih =>
    intro c cs h
    rw [List.dropWhile_cons] at h
    by_cases hx : p x = true
    · rw [if_pos hx] at h
      exact ih c cs h
    · rw [if_neg hx] at h
      cases h
      exact Bool.eq_false_iff.mpr hx

theorem alt_exists_aux :
    ∀ (n : Nat) (t : List Char), t.length ≤ n → ∀ b : Option Bool,
      (∀ c, t.head? = some c → b ≠ some (isWordChar c)) →
      ∃ L, Alt b L ∧ L.flatten = t := by
  intro n
  induction n with
  | zero =>
    intro t hlen b _
    have hnil : t = [] := List.length_eq_zero.mp (Nat.le_zero.mp hlen)
    subst hnil
    exact ⟨[], Alt.nil b, rfl⟩
  | succ n ih =>
    intro t hlen b hb
    cases t with
    | nil => exact ⟨[], Alt.nil b, rfl⟩
    | cons c cs =>
      have hpc : (isWordChar c == isWordChar c) = true := beq_self_eq_true _
      have hrest : (c :: cs).dropWhile (fun d => isWordChar d == isWordChar c)
          = cs.dropWhile (fun d => isWordChar d == isWordChar c) := by
        rw [List.dropWhile_cons, if_pos hpc]
      have hlen2 : ((c :: cs).dropWhile
          (fun d => isWordChar d == isWordChar c)).length ≤ n := by
        rw [hrest]
        have := (List.dropWhile_sublist (l := cs)
          (fun d => isWordChar d == isWordChar c)).length_le
        simp only [List.length_cons] at hlen
        omega
      have hhead : ∀ d, ((c :: cs).dropWhile
          (fun x => isWordChar x == isWordChar c)).head? = some d →
          (some (isWordChar c) : Option Bool) ≠ some (isWordChar d) := by
        intro d hd
        cases hdw : (c :: cs).dropWhile
            (fun x => isWordChar x == isWordChar c) with
        | nil => rw [hdw] at hd; simp at hd
        | cons e es =>
          rw [hdw, List.head?_cons] at hd
          have he : e = d := Option.some.inj hd
          have hpf := dropWhile_head_false
            (fun x => isWordChar x == isWordChar c) (c :: cs) e es hdw
          intro hcon
          have hceq : isWordChar c = isWordChar d := Option.some.inj hcon
          have hpf2 : (isWordChar e == isWordChar c) = false := hpf
          rw [he, ← hceq, hpc] at hpf2
          exact Bool.noConfusion hpf2
      obtain ⟨L', hL', hflat⟩ := ih _ hlen2 (some (isWordChar c)) hhead
      refine ⟨(c :: cs).takeWhile (fun x => isWordChar x == isWordChar c)
        :: L', ?_, ?_⟩
      · refine Alt.cons b (isWordChar c) _ L' ?_ ?_ (hb c rfl) hL'
        · rw [List.takeWhile_cons, if_pos hpc]
          simp
        · intro x hx
          have hpx := List.mem_takeWhile_imp hx
          simp only [beq_iff_eq] at hpx
          exact hpx
      · rw [List.flatten_cons, hflat, List.takeWhile_append_dropWhile]

theorem alt_exists (t : List Char) : ∃ L, Alt none L ∧ L.flatten = t :=
  alt_exists_aux t.length t le_rfl none
    (fun _ _ h => Option.noConfusion h)

theorem tokenMap_cases (k v w : List Char) :
    tokenMap k v w = w ∨ tokenMap k v w = v := by
  rw [tokenMap]
  by_cases h : ciEq k w = true
  · rw [if_pos h]
    exact Or.inr rfl
  · rw [if_neg h]
    exact Or.inl rfl

theorem denee_head_word {r : List Char} (h : ciEq "den".toList r = true) :
    ∃ a rs, r = a :: rs ∧ isWordChar a = true := by
  obtain ⟨a, b1, c1, rfl⟩ := denee_r_shape h
  have h' : (('d'.toLower == a.toLower) && (('e'.toLower == b1.toLower) &&
    (('n'.toLower == c1.toLower) && true))) = true := h
  simp only [Bool.and_eq_true] at h'
  exact ⟨a, [b1, c1], rfl, wordO_beq h'.1 (by decide)⟩

theorem ee_head_word {r : List Char} (h : ciEq "ee".toList r = true) :
    ∃ y rs, r = y :: rs ∧ isWordChar y = true := by
  obtain ⟨y, z, rfl⟩ := denee_r2_shape h
  have h' : (('e'.toLower == y.toLower) &&
    (('e'.toLower == z.toLower) && true)) = true := h
  simp only [Bool.and_eq_true] at h'
  exact ⟨y, [z], rfl, wordO_beq h'.1 (by decide)⟩

theorem deneeCollapse_head (L : List (List Char)) (r : List Char) :
    ∃ h t, deneeCollapse (r :: L) = h :: t ∧
      (h = r ∨ h = "defence".toList) := by
  match L with
  | [] => exact ⟨r, [], rfl, Or.inl rfl⟩
  | [s] => exact ⟨r, [s], rfl, Or.inl rfl⟩
  | s :: r2 :: L4 =>
    by_cases hg : ciEq "den".toList r = true ∧ s = ['.'] ∧
        ciEq "ee".toList r2 = true
    · rw [deneeCollapse, if_pos hg]
      exact ⟨_, _, rfl, Or.inr rfl⟩
    · rw [deneeCollapse, if_neg hg]
      exact ⟨_, _, rfl, Or.inl rfl⟩

theorem alt_map_tokenMap {k v : List Char} (hk : k ≠ [])
    (hkw : ∀ x ∈ k, isWordChar x = true) (hv : v ≠ [])
    (hvw : ∀ x ∈ v, isWordChar x = true) :
    ∀ {L : List (List Char)} {b : Option Bool}, Alt b L →
      Alt b (L.map (tokenMap k v)) := by
  intro L
  induction L with
  | nil => intro b _; exact Alt.nil b
  | cons r L2 ih =>
    intro b hA
    obtain ⟨w, hr, hw, hne, hL2⟩ := alt_cons_inv hA
    rw [List.map_cons]
    cases w with
    | false =>
      have hsep : ciEq k r = false := by
        apply ciEq_false_of_sep hk hkw (Or.inr ?_)
        cases r with
        | nil => exact absurd rfl hr
        | cons c0 r0 => rw [List.headD_cons]; exact hw c0 (by simp)
      rw [tokenMap, if_neg (by simp [hsep])]
      exact Alt.cons b false r _ hr hw hne (ih hL2)
    | true =>
      rw [tokenMap]
      by_cases hciq : ciEq k r = true
      · rw [if_pos hciq]
        exact Alt.cons b true v _ hv (fun x hx => hvw x hx) hne (ih hL2)
      · rw [if_neg hciq]
        exact Alt.cons b true r _ hr hw hne (ih hL2)

theorem alt_deneeCollapse :
    ∀ (n : Nat) (L : List (List Char)) (b : Option Bool), L.length ≤ n →
      Alt b L → Alt b (deneeCollapse L) := by
  intro n
  induction n with
  | zero =>
    intro L b hlen hA
    have hnil : L = [] := List.length_eq_zero.mp (Nat.le_zero.mp hlen)
    subst hnil
    exact hA
  | succ n ih =>
    intro L b hlen hA
    match L, hA, hlen with
    | [], hA, _ => exact hA
    | [r], hA, _ => exact hA
    | [r, s], hA, _ => exact hA
    | r :: s :: r2 :: L4, hA, hlen =>
      obtain ⟨w, hr, hw, hne, hA2⟩ := alt_cons_inv hA
      obtain ⟨w1, hs, hws, hnes, hA3⟩ := alt_cons_inv hA2
      obtain ⟨w2, hr2, hw2, hne2, hA4⟩ := alt_cons_inv hA3
      by_cases hg : ciEq "den".toList r = true ∧ s = ['.'] ∧
          ciEq "ee".toList r2 = true
      · rw [deneeCollapse, if_pos hg]
        have hwt : w = true := by
          obtain ⟨a, rs, heq, haw⟩ := denee_head_word hg.1
          have hww := hw a (by rw [heq]; simp)
          rw [haw] at hww
          exact hww.symm
        have hw2t : w2 = true := by
          obtain ⟨y, rs, heq, hyw⟩ := ee_head_word hg.2.2
          have hww := hw2 y (by rw [heq]; simp)
          rw [hyw] at hww
          exact hww.symm
        subst hwt
        subst hw2t
        exact Alt.cons b true "defence".toList (deneeCollapse L4)
          (by decide) (by decide) hne
          (ih L4 (some true) (by simp at hlen ⊢; omega) hA4)
      · rw [deneeCollapse, if_neg hg]
        exact Alt.cons b w r _ hr hw hne
          (ih (s :: r2 :: L4) (some w) (by simp at hlen ⊢; omega) hA2)

theorem deneeCount_collapse_zero :
    ∀ (n : Nat) (L : List (List Char)) (b : Option Bool), L.length ≤ n →
      Alt b L → deneeCount (deneeCollapse L) = 0 := by
  intro n
  induction n with
  | zero =>
    intro L b hlen hA
    have hnil : L = [] := List.length_eq_zero.mp (Nat.le_zero.mp hlen)
    subst hnil
    rfl
  | succ n ih =>
    intro L b hlen hA
    match L, hA, hlen with
    | [], _, _ => rfl
    | [r], _, _ => rfl
    | [r, s], _, _ => rfl
    | r :: s :: r2 :: L4, hA, hlen =>
      obtain ⟨w, hr, hw, hne, hA2⟩ := alt_cons_inv hA
      obtain ⟨w1, hs, hws, hnes, hA3⟩ := alt_cons_inv hA2
      by_cases hg : ciEq "den".toList r = true ∧ s = ['.'] ∧
          ciEq "ee".toList r2 = true
      · rw [deneeCollapse, if_pos hg]
        obtain ⟨w2, hr2, hw2, hne2, hA4⟩ := alt_cons_inv hA3
        rw [deneeCount_cons_eq (fun s' r2' L3' heq hgg =>
          absurd hgg.1 (by decide))]
        exact ih L4 (some w2) (by simp at hlen ⊢; omega) hA4
      · rw [deneeCollapse, if_neg hg]
        cases w with
        | false =>
          have hsepr : ciEq ['d', 'e', 'n'] r = false := by
            apply ciEq_false_of_sep (by decide) (by decide) (Or.inr ?_)
            cases r with
            | nil => exact absurd rfl hr
            | cons c0 r0 => rw [List.headD_cons]; exact hw c0 (by simp)
          rw [deneeCount_cons_eq (fun s' r2' L3' heq hgg =>
            absurd hgg.1 (by simp [hsepr]))]
          exact ih (s :: r2 :: L4) (some false) (by simp at hlen ⊢; omega) hA2
        | true =>
          have hw1f : w1 = false := by
            cases w1 with
            | true => exact absurd rfl hnes
            | false => rfl
          have hseps : ciEq ['d', 'e', 'n'] s = false := by
            apply ciEq_false_of_sep (by decide) (by decide) (Or.inr ?_)
            cases s with
            | nil => exact absurd rfl hs
            | cons c0 s0 =>
              rw [List.headD_cons, hws c0 (by simp), hw1f]
          have hcs : deneeCollapse (s :: r2 :: L4)
              = s :: deneeCollapse (r2 :: L4) :=
            deneeCollapse_cons_eq (fun s' r2' L3' heq hgg =>
              absurd hgg.1 (by simp [hseps]))
          rw [hcs]
          obtain ⟨h0, t0, hct, hor⟩ := deneeCollapse_head L4 r2
          rw [hct]
          have hng : ¬(ciEq "den".toList r = true ∧ s = ['.'] ∧
              ciEq "ee".toList h0 = true) := by
            intro hgg
            apply hg
            refine ⟨hgg.1, hgg.2.1, ?_⟩
            rcases hor with rfl | rfl
            · exact hgg.2.2
            · exact absurd hgg.2.2 (by decide)
          rw [deneeCount_cons_eq (fun s' r2' L3' heq hgg => by
            injection heq with h1 h2
            injection h2 with h3 h4
            subst h1
            subst h3
            exact hng hgg)]
          rw [deneeCount_cons_eq (fun s' r2' L3' heq hgg =>
            absurd hgg.1 (by simp [hseps]))]
          rw [← hct]
          exact ih (r2 :: L4) (some w1) (by simp at hlen ⊢; omega) hA3

theorem deneeCollapse_mem :
    ∀ (n : Nat) (L : List (List Char)), L.length ≤ n →
      ∀ w ∈ deneeCollapse L, w ∈ L ∨ w = "defence".toList := by
  intro n
  induction n with
  | zero =>
    intro L hlen w hw
    have hnil : L = [] := List.length_eq_zero.mp (Nat.le_zero.mp hlen)
    subst hnil
    exact absurd hw (List.not_mem_nil w)
  | succ n ih =>
    intro L hlen w hw
    match L, hlen, hw with
    | [], _, hw => exact absurd hw (List.not_mem_nil w)
    | [r], _, hw => exact Or.inl hw
    | [r, s], _, hw => exact Or.inl hw
    | r :: s :: r2 :: L4, hlen, hw =>
      by_cases hg : ciEq "den".toList r = true ∧ s = ['.'] ∧
          ciEq "ee".toList r2 = true
      · rw [deneeCollapse, if_pos hg] at hw
        rcases List.mem_cons.mp hw with heq | hw2
        · exact Or.inr heq
        · rcases ih L4 (by simp at hlen ⊢; omega) w hw2 with h | h
          · exact Or.inl (by simp [h])
          · exact Or.inr h
      · rw [deneeCollapse, if_neg hg] at hw
        rcases List.mem_cons.mp hw with heq | hw2
        · exact Or.inl (by simp [heq])
        · rcases ih (s :: r2 :: L4) (by simp at hlen ⊢; omega) w hw2 with h | h
          · exact Or.inl (List.mem_cons_of_mem r h)
          · exact Or.inr h

theorem deneeCount_map_zero {k v : List Char}
    (hvden : ciEq "den".toList v = false)
    (hvee : ciEq "ee".toList v = false)
    (hvw : ∀ x ∈ v, isWordChar x = true) :
    ∀ L : List (List Char), deneeCount L = 0 →
      deneeCount (L.map (tokenMap k v)) = 0 := by
  intro L
  induction L with
  | nil => intro _; rfl
  | cons r L2 ih =>
    intro h
    cases L2 with
    | nil => rfl
    | cons s L2' =>
      cases L2' with
      | nil => rfl
      | cons r2 L3 =>
        have hgf : ¬(ciEq "den".toList r = true ∧ s = ['.'] ∧
            ciEq "ee".toList r2 = true) := by
          intro hgg
          rw [deneeCount, if_pos hgg] at h
          omega
        have htail : deneeCount (s :: r2 :: L3) = 0 := by
          rw [deneeCount, if_neg hgf] at h
          exact h
        show deneeCount (tokenMap k v r :: tokenMap k v s ::
          tokenMap k v r2 :: L3.map (tokenMap k v)) = 0
        have hgf' : ¬(ciEq "den".toList (tokenMap k v r) = true ∧
            tokenMap k v s = ['.'] ∧
            ciEq "ee".toList (tokenMap k v r2) = true) := by
          intro hgg
          apply hgf
          refine ⟨?_, ?_, ?_⟩
          · rcases tokenMap_cases k v r with he | he
            · rw [he] at hgg
              exact hgg.1
            · rw [he] at hgg
              have hvden2 : ciEq ['d', 'e', 'n'] v = false := hvden
              exact absurd hgg.1 (by simp [hvden2])
          · rcases tokenMap_cases k v s with he | he
            · rw [he] at hgg
              exact hgg.2.1
            · rw [he] at hgg
              have hvdot : v = ['.'] := hgg.2.1
              have hdot := hvw '.' (by rw [hvdot]; simp)
              exact absurd hdot (by decide)
          · rcases tokenMap_cases k v r2 with he | he
            · rw [he] at hgg
              exact hgg.2.2
            · rw [he] at hgg
              have hvee2 : ciEq ['e', 'e'] v = false := hvee
              exact absurd hgg.2.2 (by simp [hvee2])
        rw [deneeCount, if_neg hgf']
        exact ih htail

theorem map_tokenMap_id {k v : List Char} :
    ∀ {L : List (List Char)}, (∀ w ∈ L, ciEq k w = false) →
      L.map (tokenMap k v) = L := by
  intro L
  induction L with
  | nil => intro _; rfl
  | cons r L2 ih =>
    intro h
    rw [List.map_cons, tokenMap, if_neg (by simp [h r (by simp)]),
      ih (fun w hw => h w (by simp [hw]))]

theorem pure_clean_map {j k v : List Char} {L : List (List Char)}
    (hclean : ∀ w ∈ L, ciEq j w = false) (hv : ciEq j v = false) :
    ∀ w ∈ L.map (tokenMap k v), ciEq j w = false := by
  intro w' hw'
  obtain ⟨w, hw, rfl⟩ := List.mem_map.mp hw'
  rcases tokenMap_cases k v w with he | he
  · rw [he]
    exact hclean w hw
  · rw [he]
    exact hv

theorem pure_clean_establish {k v : List Char} (hkv : ciEq k v = false)
    (L : List (List Char)) :
    ∀ w ∈ L.map (tokenMap k v), ciEq k w = false := by
  intro w' hw'
  obtain ⟨w, hw, rfl⟩ := List.mem_map.mp hw'
  rw [tokenMap]
  by_cases h : ciEq k w = true
  · rw [if_pos h]
    exact hkv
  · rw [if_neg h]
    exact Bool.eq_false_iff.mpr h

theorem deneeCollapse_id : ∀ L : List (List Char), deneeCount L = 0 →
    deneeCollapse L = L := by
  intro L
  induction L with
  | nil => intro _; rfl
  | cons r L2 ih =>
    intro h
    cases L2 with
    | nil => rfl
    | cons s L2' =>
      cases L2' with
      | nil => rfl
      | cons r2 L3 =>
        have hgf : ¬(ciEq "den".toList r = true ∧ s = ['.'] ∧
            ciEq "ee".toList r2 = true) := by
          intro hgg
          rw [deneeCount, if_pos hgg] at h
          omega
        have htail : deneeCount (s :: r2 :: L3) = 0 := by
          rw [deneeCount, if_neg hgf] at h
          exact h
        rw [deneeCollapse, if_neg hgf, ih htail]

theorem rules_good : ∀ r ∈ word_corrections, goodRule r = true := by decide

theorem rules_val_no_key : ∀ r ∈ word_corrections, ∀ s ∈ word_corrections,
    ciEq s.1 r.2 = false := by decide

theorem rules_denee_val : ∀ r ∈ word_corrections,
    r.1 = deneeKey → r.2 = "defence".toList := by decide

theorem rules_val_not_den : ∀ r ∈ word_corrections,
    ciEq "den".toList r.2 = false ∧ ciEq "ee".toList r.2 = false := by decide

theorem rules_key_not_defence : ∀ r ∈ word_corrections,
    ciEq r.1 "defence".toList = false := by decide

theorem goodRule_pure {r : List Char × List Char} (hg : goodRule r = true)
    (hd : r.1 ≠ deneeKey) :
    r.1 ≠ [] ∧ (∀ x ∈ r.1, isWordChar x = true) ∧ r.2 ≠ [] ∧
      (∀ x ∈ r.2, isWordChar x = true) := by
  simp only [goodRule, Bool.and_eq_true, Bool.or_eq_true] at hg
  obtain ⟨⟨hor, hv⟩, hvne⟩ := hg
  rcases hor with hkey | hdk
  · refine ⟨?_, ?_, ?_, ?_⟩
    · intro hnil
      have := hkey.2
      rw [hnil] at this
      simp at this
    · intro x hx
      have hall := hkey.1
      rw [allWord, List.all_eq_true] at hall
      exact hall x hx
    · intro hnil
      rw [hnil] at hvne
      simp at hvne
    · intro x hx
      rw [allWord, List.all_eq_true] at hv
      exact hv x hx
  · exact absurd (beq_iff_eq.mp hdk) hd

theorem alt_ruleChunkStep {r : List Char × List Char} (hg : goodRule r = true)
    {L : List (List Char)} {b : Option Bool} (hA : Alt b L) :
    Alt b (ruleChunkStep r L) := by
  rw [ruleChunkStep]
  by_cases hd : r.1 = deneeKey
  · rw [if_pos hd]
    exact alt_deneeCollapse L.length L b le_rfl hA
  · rw [if_neg hd]
    obtain ⟨hk, hkw, hv, hvw⟩ := goodRule_pure hg hd
    exact alt_map_tokenMap hk hkw hv hvw hA

theorem wordStep_chunk {r : List Char × List Char} (hg : goodRule r = true)
    (hdv : r.1 = deneeKey → r.2 = "defence".toList)
    {L : List (List Char)} (hA : Alt none L) :
    wordStep r L.flatten = (ruleChunkStep r L).flatten := by
  by_cases hd : r.1 = deneeKey
  · rw [ruleChunkStep, if_pos hd]
    have hcount : countWB r.1 L.flatten = deneeCount L := by
      rw [hd]
      exact count_join_denee L.length L none none le_rfl hA rfl
    have hsub : subWB r.1 r.2 L.flatten = (deneeCollapse L).flatten := by
      rw [hd, hdv hd]
      exact sub_join_denee L.length L none none le_rfl hA rfl
    rw [wordStep]
    simp only [hcount]
    by_cases hpos : deneeCount L > 0
    · rw [if_pos hpos]
      exact hsub
    · rw [if_neg hpos]
      rw [deneeCollapse_id L (by omega)]
  · rw [ruleChunkStep, if_neg hd]
    obtain ⟨hk, hkw, hv, hvw⟩ := goodRule_pure hg hd
    have hcount : countWB r.1 L.flatten
        = (L.filter (fun w => ciEq r.1 w)).length :=
      count_join_pure hk hkw L none none hA rfl
    have hsub : subWB r.1 r.2 L.flatten
        = (L.map (tokenMap r.1 r.2)).flatten :=
      sub_join_pure hk hkw L none none hA rfl
    rw [wordStep]
    simp only [hcount]
    by_cases hpos : (L.filter (fun w => ciEq r.1 w)).length > 0
    · rw [if_pos hpos]
      exact hsub
    · rw [if_neg hpos]
      have h0 : L.filter (fun w => ciEq r.1 w) = [] := by
        cases hh : L.filter (fun w => ciEq r.1 w) with
        | nil => rfl
        | cons a as => rw [hh] at hpos; simp at hpos
      have hfil : ∀ w ∈ L, ciEq r.1 w = false := by
        intro w hw
        by_cases hc : ciEq r.1 w = true
        · have hmem : w ∈ L.filter (fun w => ciEq r.1 w) :=
            List.mem_filter.mpr ⟨hw, hc⟩
          rw [h0] at hmem
          exact absurd hmem (List.not_mem_nil w)
        · exact Bool.eq_false_iff.mpr hc
      rw [map_tokenMap_id hfil]

theorem ruleClean_step {K r : List Char × List Char}
    (hgr : goodRule r = true)
    {L : List (List Char)} {b : Option Bool} (hA : Alt b L)
    (hclean : ruleClean K L)
    (hval : ciEq K.1 r.2 = false)
    (hdenv : ciEq "den".toList r.2 = false)
    (heev : ciEq "ee".toList r.2 = false)
    (hKdef : ciEq K.1 "defence".toList = false) :
    ruleClean K (ruleChunkStep r L) := by
  rw [ruleChunkStep]
  by_cases hdr : r.1 = deneeKey
  · rw [if_pos hdr]
    rw [ruleClean] at hclean ⊢
    by_cases hdK : K.1 = deneeKey
    · rw [if_pos hdK]
      exact deneeCount_collapse_zero L.length L b le_rfl hA
    · rw [if_neg hdK] at hclean ⊢
      intro w hw
      rcases deneeCollapse_mem L.length L le_rfl w hw with h | h
      · exact hclean w h
      · rw [h]
        exact hKdef
  · rw [if_neg hdr]
    rw [ruleClean] at hclean ⊢
    obtain ⟨hk, hkw, hv, hvw⟩ := goodRule_pure hgr hdr
    by_cases hdK : K.1 = deneeKey
    · rw [if_pos hdK] at hclean ⊢
      exact deneeCount_map_zero hdenv heev hvw L hclean
    · rw [if_neg hdK] at hclean ⊢
      exact pure_clean_map hclean hval

theorem ruleClean_establish {r : List Char × List Char}
    (hg : goodRule r = true) (hself : ciEq r.1 r.2 = false)
    {L : List (List Char)} {b : Option Bool} (hA : Alt b L) :
    ruleClean r (ruleChunkStep r L) := by
  rw [ruleChunkStep, ruleClean]
  by_cases hd : r.1 = deneeKey
  · rw [if_pos hd, if_pos hd]
    exact deneeCount_collapse_zero L.length L b le_rfl hA
  · rw [if_neg hd, if_neg hd]
    exact pure_clean_establish hself L

theorem alt_fold :
    ∀ (rules : List (List Char × List Char)) (L : List (List Char))
      (b : Option Bool), Alt b L → (∀ r ∈ rules, goodRule r = true) →
      Alt b (rules.foldl (fun acc r => ruleChunkStep r acc) L) := by
  intro rules
  induction rules with
  | nil => intro L b hA _; exact hA
  | cons r0 rest ih =>
    intro L b hA hgood
    rw [List.foldl_cons]
    exact ih _ b (alt_ruleChunkStep (hgood r0 (by simp)) hA)
      (fun r hr => hgood r (by simp [hr]))

theorem clean_fold :
    ∀ (rules : List (List Char × List Char)) (L : List (List Char))
      (b : Option Bool) (K : List Char × List Char),
      Alt b L → ruleClean K L →
      (∀ r ∈ rules, goodRule r = true) →
      (∀ r ∈ rules, ciEq K.1 r.2 = false) →
      (∀ r ∈ rules, ciEq "den".toList r.2 = false ∧
        ciEq "ee".toList r.2 = false) →
      ciEq K.1 "defence".toList = false →
      ruleClean K (rules.foldl (fun acc r => ruleChunkStep r acc) L) := by
  intro rules
  induction rules with
  | nil => intro L b K _ hc _ _ _ _; exact hc
  | cons r0 rest ih =>
    intro L b K hA hc hgood hval hdv hKdef
    rw [List.foldl_cons]
    exact ih _ b K (alt_ruleChunkStep (hgood r0 (by simp)) hA)
      (ruleClean_step (hgood r0 (by simp)) hA hc (hval r0 (by simp))
        (hdv r0 (by simp)).1 (hdv r0 (by simp)).2 hKdef)
      (fun r hr => hgood r (by simp [hr]))
      (fun r hr => hval r (by simp [hr]))
      (fun r hr => hdv r (by simp [hr])) hKdef

theorem fold_word_chunk :
    ∀ (rules : List (List Char × List Char)) (L : List (List Char)),
      Alt none L → (∀ r ∈ rules, goodRule r = true) →
      (∀ r ∈ rules, r.1 = deneeKey → r.2 = "defence".toList) →
      rules.foldl (fun acc r => wordStep r acc) L.flatten
        = (rules.foldl (fun acc r => ruleChunkStep r acc) L).flatten := by
  intro rules
  induction rules with
  | nil => intro L _ _ _; rfl
  | cons r0 rest ih =>
    intro L hA hgood hdv
    rw [List.foldl_cons, List.foldl_cons,
      wordStep_chunk (hgood r0 (by simp)) (hdv r0 (by simp)) hA]
    exact ih _ (alt_ruleChunkStep (hgood r0 (by simp)) hA)
      (fun r hr => hgood r (by simp [hr])) (fun r hr => hdv r (by simp [hr]))

theorem wordStep_clean_id {r : List Char × List Char} (hg : goodRule r = true)
    {L : List (List Char)} (hA : Alt none L) (hc : ruleClean r L) :
    wordStep r L.flatten = L.flatten := by
  have hz : countWB r.1 L.flatten = 0 := by
    rw [ruleClean] at hc
    by_cases hd : r.1 = deneeKey
    · rw [if_pos hd] at hc
      rw [hd]
      show countWBAux deneeKey 0 none L.flatten = 0
      rw [count_join_denee L.length L none none le_rfl hA rfl, hc]
    · rw [if_neg hd] at hc
      obtain ⟨hk, hkw, hv2, hvw⟩ := goodRule_pure hg hd
      show countWBAux r.1 0 none L.flatten = 0
      rw [count_join_pure hk hkw L none none hA rfl]
      rw [List.length_eq_zero, List.filter_eq_nil_iff]
      intro a ha
      simp [hc a ha]
  rw [wordStep]
  simp only [hz]
  rw [if_neg (by omega)]

theorem fold_word_clean :
    ∀ (rules : List (List Char × List Char)) (L : List (List Char)),
      Alt none L → (∀ r ∈ rules, goodRule r = true) →
      (∀ r ∈ rules, ruleClean r L) →
      rules.foldl (fun acc r => wordStep r acc) L.flatten = L.flatten := by
  intro rules
  induction rules with
  | nil => intro L _ _ _; rfl
  | cons r0 rest ih =>
    intro L hA hgood hc
    rw [List.foldl_cons, wordStep_clean_id (hgood r0 (by simp)) hA
      (hc r0 (by simp))]
    exact ih L hA (fun r hr => hgood r (by simp [hr]))
      (fun r hr => hc r (by simp [hr]))

/-- C1, amended.  The full `correct_text` pass is not idempotent in the
claimed sense (see `c1_counterexample`: the character-level transforms can
create fresh word-rule matches, e.g. `F1om` → `FIom`, which the word rule
`fiom → from` then matches).  For the word-rule pass itself the claim holds:
on the output of the word-level phase every rule of `word_corrections` has
zero further `\b`-delimited case-insensitive matches, and running the
word-level phase a second time leaves the text unchanged. -/
theorem c1_word_rules_idempotent :
    (∀ t : List Char, ∀ r ∈ word_corrections,
      countWB r.1 (wordPhase t) = 0) ∧
    ∀ t : List Char, wordPhase (wordPhase t) = wordPhase t := by
  have master : ∀ t : List Char,
      ∃ L, Alt none L ∧ wordPhase t = L.flatten ∧
        ∀ r ∈ word_corrections, ruleClean r L := by
    intro t
    obtain ⟨L0, hA0, hf0⟩ := alt_exists t
    refine ⟨word_corrections.foldl (fun acc r => ruleChunkStep r acc) L0,
      alt_fold word_corrections L0 none hA0 rules_good, ?_, ?_⟩
    · rw [wordPhase, ← hf0]
      exact fold_word_chunk word_corrections L0 hA0 rules_good rules_denee_val
    · intro r hr
      obtain ⟨pre, post, hsplit⟩ := List.append_of_mem hr
      rw [hsplit, List.foldl_append, List.foldl_cons]
      have hApre : Alt none
          (pre.foldl (fun acc r => ruleChunkStep r acc) L0) :=
        alt_fold pre L0 none hA0
          (fun x hx => rules_good x (by rw [hsplit]; simp [hx]))
      exact clean_fold post _ none r
        (alt_ruleChunkStep (rules_good r hr) hApre)
        (ruleClean_establish (rules_good r hr)
          (rules_val_no_key r hr r hr) hApre)
        (fun x hx => rules_good x (by rw [hsplit]; simp [hx]))
        (fun x hx => rules_val_no_key x (by rw [hsplit]; simp [hx]) r hr)
        (fun x hx => rules_val_not_den x (by rw [hsplit]; simp [hx]))
        (rules_key_not_defence r hr)
  constructor
  · intro t r hr
    obtain ⟨L, hA, heq, hclean⟩ := master t
    rw [heq]
    have hcr := hclean r hr
    rw [ruleClean] at hcr
    by_cases hd : r.1 = deneeKey
    · rw [if_pos hd] at hcr
      rw [hd]
      show countWBAux deneeKey 0 none L.flatten = 0
      rw [count_join_denee L.length L none none le_rfl hA rfl, hcr]
    · rw [if_neg hd] at hcr
      obtain ⟨hk, hkw, hv2, hvw⟩ := goodRule_pure (rules_good r hr) hd
      show countWBAux r.1 0 none L.flatten = 0
      rw [count_join_pure hk hkw L none none hA rfl]
      rw [List.length_eq_zero, List.filter_eq_nil_iff]
      intro a ha
      simp [hcr a ha]
  · intro t
    obtain ⟨L, hA, heq, hclean⟩ := master t
    rw [heq, wordPhase]
    exact fold_word_clean word_corrections L hA rules_good hclean

/-- Witness for C1 at a concrete input: the rule `tlie → the` is in the
table, it has no match left on the word-phase output of `"tlie cat"`, and
the word phase is idempotent there. -/
theorem c1_witness :
    ("tlie".toList, "the".toList) ∈ word_corrections ∧
      countWB "tlie".toList (wordPhase "tlie cat".toList) = 0 ∧
      wordPhase (wordPhase "tlie cat".toList)
        = wordPhase "tlie cat".toList :=
  ⟨by decide,
    c1_word_rules_idempotent.1 "tlie cat".toList
      ("tlie".toList, "the".toList) (by decide),
    c1_word_rules_idempotent.2 "tlie cat".toList⟩
